import Mathlib

/-!
# ArrayAlgorithms: Partition, QuickSort, RaddixSort (Modules/Array/sort.hxx)

Shallow embedding of the three templates of `sort.hxx`.

* A sequence is a `List`, an iterator is a position (`Nat`) into it, and a range is a pair of
  positions `begin`, `end` (the latter written `endp`, the former `begin`).
* Every function that dereferences an iterator returns an `Option`: `none` stands for undefined
  behaviour of the C++ program (a read or a write outside the sequence, a bucket index outside
  the bucket vector, a division by zero) or for a loop or recursion that has not finished within
  the fuel it was given.
* `rand()` is a stream `rnd : Nat → Nat` of non-negative values together with a counter of the
  values consumed so far.
* Machine integers: `int` is 32 bits wide, `size_t` and `ptrdiff_t` are 64 bits wide,
  `unsigned int` is 32 bits wide. Conversions between them are modular.
* Memory is not bounded: the construction `buckets(base)` of the bucket vector always succeeds,
  so a run in which it throws `std::bad_alloc` before the first pass is not described.
-/

namespace ArrayAlgorithms

/-- Conversion of an integer to `int` (32 bits, two's complement): used for
`int distance = std::distance(begin, end)` and for `static_cast<int>(...)`. -/
def toInt32 (z : Int) : Int := (z + 2147483648) % 4294967296 - 2147483648

/-- Conversion of an `int` to `size_t` (64 bits, unsigned). -/
def toSizeT (z : Int) : Nat := (z % 18446744073709551616).toNat

/-- Conversion of an `int` to `unsigned int` (32 bits). -/
def toUInt32 (z : Int) : Nat := (z % 4294967296).toNat

/-- The value of `std::numeric_limits<int>::max()`. -/
def INT_MAX : Nat := 2147483647

/-- The value of `std::distance(begin, end)` for two positions of one sequence. -/
def distance (begin endp : Nat) : Int := (endp : Int) - (begin : Int)

/-- The effect of `std::swap(*i, *j)` on the sequence; `none` when a position is outside it. -/
def swapAt {α : Type} (a : List α) (i j : Nat) : Option (List α) :=
  match a[i]?, a[j]? with
  | some x, some y => some ((a.set i y).set j x)
  | _, _ => none

/-- The scanning loop of `Partition`:
`for (it = begin; it != end - 1; ++it) if (Compare()(*it, pivotValue)) { swap(*store, *it); ++store; }`.
`last` is `end - 1`; the result is the sequence and the final `store`. The first argument bounds
the number of iterations. -/
def PartitionLoop {α : Type} (comp : α → α → Bool) (pivotValue : α) (last : Nat) :
    Nat → Nat → Nat → List α → Option (List α × Nat)
  | fuel, it, store, a =>
    if it = last then some (a, store)
    else
      match fuel with
      | 0 => none
      | fuel + 1 =>
        match a[it]? with
        | none => none
        | some x =>
          if comp x pivotValue then
            match swapAt a store it with
            | none => none
            | some a1 => PartitionLoop comp pivotValue last fuel (it + 1) (store + 1) a1
          else PartitionLoop comp pivotValue last fuel (it + 1) store a

/-- `Partition(begin, pivot, end)`: the result is the sequence and the new value of the
in-out parameter `pivot`. -/
def Partition {α : Type} (comp : α → α → Bool) (a : List α) (begin pivot endp : Nat) :
    Option (List α × Nat) :=
  if distance begin endp < 2 ∨ pivot = endp then some (a, pivot)
  else
    match a[pivot]? with
    | none => none
    | some pivotValue =>
      match swapAt a pivot (endp - 1) with
      | none => none
      | some a1 =>
        match PartitionLoop comp pivotValue (endp - 1) (endp - 1 - begin) begin begin a1 with
        | none => none
        | some (a2, store) =>
          match swapAt a2 (endp - 1) store with
          | none => none
          | some a3 => some (a3, store)

/-- `QuickSort(begin, end)`. The state is the sequence and the number `k` of values of `rand()`
consumed so far; the first argument bounds the depth of the recursion. The guard tests the `int`
variable `distance`, that is `std::distance(begin, end)` converted to 32 bits; the modulus of the
pivot choice is the unconverted difference `end - begin`. -/
def QuickSort {α : Type} (comp : α → α → Bool) (rnd : Nat → Nat) :
    Nat → List α → Nat → Nat → Nat → Option (List α × Nat)
  | fuel, a, begin, endp, k =>
    if toInt32 (distance begin endp) < 2 then some (a, k)
    else
      match fuel with
      | 0 => none
      | fuel + 1 =>
        match Partition comp a begin (begin + rnd k % (endp - begin)) endp with
        | none => none
        | some (a1, pivot) =>
          match QuickSort comp rnd fuel a1 begin pivot (k + 1) with
          | none => none
          | some (a2, k2) => QuickSort comp rnd fuel a2 (pivot + 1) endp k2

/-- The bucket index `static_cast<int>(*it / powerBase) % base` of an element: the element is
converted to `size_t` for the division, the quotient is cast to `int`, and that is converted to
`unsigned int` for the remainder. `none` when a divisor is zero. -/
def bucketIndex (base powerBase : Nat) (x : Int) : Option Nat :=
  if powerBase = 0 ∨ base = 0 then none
  else some (toUInt32 (toInt32 ((toSizeT x / powerBase : Nat) : Int)) % base)

/-- The distribution loop of one pass:
`for (it = begin; it != end; ++it) buckets[index(*it)].push(*it)`.
The first argument is the number of iterations left, `end - it`. -/
def distribute (base powerBase : Nat) (a : List Int) :
    Nat → Nat → List (List Int) → Option (List (List Int))
  | 0, _, buckets => some buckets
  | n + 1, it, buckets =>
    match a[it]? with
    | none => none
    | some x =>
      match bucketIndex base powerBase x with
      | none => none
      | some d =>
        match buckets[d]? with
        | none => none
        | some q => distribute base powerBase a n (it + 1) (buckets.set d (q ++ [x]))

/-- The inner loop of the drain, on one bucket:
`while (!it->empty()) { *(itSrc++) = it->front(); it->pop(); }`.
The result is the sequence and the write cursor `itSrc`; the bucket is left empty. -/
def drainQueue : List Int → List Int → Nat → Option (List Int × Nat)
  | [], a, itSrc => some (a, itSrc)
  | x :: q, a, itSrc =>
    if itSrc < a.length then drainQueue q (a.set itSrc x) (itSrc + 1) else none

/-- The outer loop of the drain, over the bucket vector from its first to its last bucket.
The result is the bucket vector after the loop (every visited bucket emptied), the sequence and
the write cursor. -/
def drainBuckets : List (List Int) → List Int → Nat → Option (List (List Int) × List Int × Nat)
  | [], a, itSrc => some ([], a, itSrc)
  | q :: rest, a, itSrc =>
    match drainQueue q a itSrc with
    | none => none
    | some (a1, s1) =>
      match drainBuckets rest a1 s1 with
      | none => none
      | some (rest1, a2, s2) => some ([] :: rest1, a2, s2)

/-- One pass of `RaddixSort` (the body of the `powerBase` loop): distribute, then drain from
`begin`. The result is the bucket vector, the sequence and the final write cursor. -/
def RaddixPass (base powerBase : Nat) (a : List Int) (begin endp : Nat)
    (buckets : List (List Int)) : Option (List (List Int) × List Int × Nat) :=
  match distribute base powerBase a (endp - begin) begin buckets with
  | none => none
  | some b1 => drainBuckets b1 a begin

/-- The loop `for (size_t powerBase = 1; powerBase < max(); powerBase *= base)`. The state is the
sequence, the bucket vector and the number of passes done so far; the first argument bounds the
number of passes. -/
def RaddixLoop (base begin endp : Nat) :
    Nat → Nat → List Int → List (List Int) → Nat → Option (List Int × List (List Int) × Nat)
  | fuel, powerBase, a, buckets, passes =>
    if powerBase < INT_MAX then
      match fuel with
      | 0 => none
      | fuel + 1 =>
        match RaddixPass base powerBase a begin endp buckets with
        | none => none
        | some (b1, a1, _) =>
          RaddixLoop base begin endp fuel (powerBase * base % 18446744073709551616) a1 b1
            (passes + 1)
    else some (a, buckets, passes)

/-- `RaddixSort(begin, end, base)`. The result is the sequence and the number of passes that
were run. -/
def RaddixSort (fuel : Nat) (a : List Int) (begin endp base : Nat) : Option (List Int × Nat) :=
  if distance begin endp < 2 then some (a, 0)
  else
    match RaddixLoop base begin endp fuel 1 a (List.replicate base []) 0 with
    | none => none
    | some (a1, _, passes) => some (a1, passes)


/-! ## Specification predicates -/

/-- The order invariant on the range `[b, e)`: the comparator holds on every pair of adjacent
positions `i`, `i + 1` of the range. -/
def AdjacentOrdered {α : Type} (comp : α → α → Bool) (a : List α) (b e : Nat) : Prop :=
  ∀ i x y, b ≤ i → i + 1 < e → a[i]? = some x → a[i + 1]? = some y → comp x y = true

/-- The comparator holds on every pair of positions `i < j` of the range `[b, e)`. -/
def PairwiseOrdered {α : Type} (comp : α → α → Bool) (a : List α) (b e : Nat) : Prop :=
  ∀ i j x y, b ≤ i → i < j → j < e → a[i]? = some x → a[j]? = some y → comp x y = true

/-- The digit of an element at the place value `powerBase`: the value of `bucketIndex` when
no divisor is zero. -/
def digitOf (base powerBase : Nat) (x : Int) : Nat :=
  toUInt32 (toInt32 ((toSizeT x / powerBase : Nat) : Int)) % base

/-- Stable bucketing of a list by a key with values below `base`: the elements of key `0` in their
original order, then those of key `1`, and so on up to key `base - 1`. -/
def bucketed (base : Nat) (key : Int → Nat) (l : List Int) : List Int :=
  ((List.range base).map (fun d => l.filter (fun x => decide (key x = d)))).flatten

/-- No inversion on the range `[b, e)`: the comparator never holds from a later position to an
earlier one. -/
def NoInversion {α : Type} (comp : α → α → Bool) (a : List α) (b e : Nat) : Prop :=
  ∀ i j x y, b ≤ i → i < j → j < e → a[i]? = some x → a[j]? = some y → comp y x = false

/-- `QuickSort` together with the arguments `(begin, pivot, end)` of every call to `Partition`
it makes, in the order of the calls. The sequence and the `rand()` counter are computed as in
`QuickSort`. -/
def QuickSortPivots {α : Type} (comp : α → α → Bool) (rnd : Nat → Nat) :
    Nat → List α → Nat → Nat → Nat → Option (List α × Nat × List (Nat × Nat × Nat))
  | fuel, a, begin, endp, k =>
    if toInt32 (distance begin endp) < 2 then some (a, k, [])
    else
      match fuel with
      | 0 => none
      | fuel + 1 =>
        match Partition comp a begin (begin + rnd k % (endp - begin)) endp with
        | none => none
        | some (a1, pivot) =>
          match QuickSortPivots comp rnd fuel a1 begin pivot (k + 1) with
          | none => none
          | some (a2, k2, calls1) =>
            match QuickSortPivots comp rnd fuel a2 (pivot + 1) endp k2 with
            | none => none
            | some (a3, k3, calls2) =>
              some (a3, k3, (begin, begin + rnd k % (endp - begin), endp) :: calls1 ++ calls2)

/-- The loop of `RaddixSort` as the specification words it: the bucket set is rebuilt fresh
(`base` empty queues) for every pass and discarded after the pass. -/
def RaddixLoopFresh (base begin endp : Nat) :
    Nat → Nat → List Int → Nat → Option (List Int × Nat)
  | fuel, powerBase, a, passes =>
    if powerBase < INT_MAX then
      match fuel with
      | 0 => none
      | fuel + 1 =>
        match RaddixPass base powerBase a begin endp (List.replicate base []) with
        | none => none
        | some (_, a1, _) =>
          RaddixLoopFresh base begin endp fuel (powerBase * base % 18446744073709551616) a1
            (passes + 1)
    else some (a, passes)

/-- `RaddixSort` as the specification words it, with a fresh bucket set for every pass. -/
def RaddixSortFresh (fuel : Nat) (a : List Int) (begin endp base : Nat) :
    Option (List Int × Nat) :=
  if distance begin endp < 2 then some (a, 0)
  else RaddixLoopFresh base begin endp fuel 1 a 0

/-- The machine value of the `size_t` variable `powerBase` after `k` executions of
`powerBase *= base`, starting from `1`. -/
def powerBaseAt (base : Nat) : Nat → Nat
  | 0 => 1
  | k + 1 => powerBaseAt base k * base % 18446744073709551616

/-! ## Machine integers -/

theorem toInt32_of_small (z : Int) (h0 : 0 ≤ z) (h1 : z < 2147483648) : toInt32 z = z := by
  unfold toInt32; omega

theorem two_le_of_not_toInt32_lt (z : Int) (h0 : 0 ≤ z) (h : ¬ toInt32 z < 2) : 2 ≤ z := by
  unfold toInt32 at h; omega

theorem toInt32_lt_two (z : Int) (h : z < 2) (h0 : 0 ≤ z) : toInt32 z < 2 := by
  unfold toInt32; omega

/-! ## Swapping two positions -/

theorem cons_set_perm {α : Type} (h : α) :
    ∀ (t : List α) (j : Nat) (y : α), t[j]? = some y → (y :: t.set j h).Perm (h :: t)
  | [], j, y, hy => by simp at hy
  | c :: t, 0, y, hy => by
    simp at hy
    subst hy
    simpa using List.Perm.swap h c t
  | c :: t, j + 1, y, hy => by
    simp at hy
    have ih := cons_set_perm h t j y hy
    simp only [List.set_cons_succ]
    exact ((List.Perm.swap c y _).trans (ih.cons c)).trans (List.Perm.swap h c t)

theorem set_set_perm_of_get {α : Type} :
    ∀ (a : List α) (i j : Nat) (x y : α), a[i]? = some x → a[j]? = some y →
      ((a.set i y).set j x).Perm a
  | [], i, j, x, y, hx, _ => by simp at hx
  | h :: t, 0, 0, x, y, hx, hy => by
    simp at hx hy
    subst hx
    simp
  | h :: t, 0, j + 1, x, y, hx, hy => by
    simp at hx hy
    subst hx
    simpa using cons_set_perm h t j y hy
  | h :: t, i + 1, 0, x, y, hx, hy => by
    simp at hx hy
    subst hy
    simpa using cons_set_perm h t i x hx
  | h :: t, i + 1, j + 1, x, y, hx, hy => by
    simp at hx hy
    simpa using (set_set_perm_of_get t i j x y hx hy).cons h

theorem swapAt_eq_some {α : Type} (a : List α) (i j : Nat) (hi : i < a.length)
    (hj : j < a.length) : swapAt a i j = some ((a.set i a[j]).set j a[i]) := by
  unfold swapAt
  rw [List.getElem?_eq_getElem hi, List.getElem?_eq_getElem hj]

theorem swapAt_bounds {α : Type} {a a1 : List α} {i j : Nat} (h : swapAt a i j = some a1) :
    i < a.length ∧ j < a.length := by
  unfold swapAt at h
  rcases hi : a[i]? with _ | x
  · simp [hi] at h
  · rcases hj : a[j]? with _ | y
    · simp [hi, hj] at h
    · exact ⟨(List.getElem?_eq_some_iff.1 hi).1, (List.getElem?_eq_some_iff.1 hj).1⟩

theorem swapAt_length {α : Type} {a a1 : List α} {i j : Nat} (h : swapAt a i j = some a1) :
    a1.length = a.length := by
  obtain ⟨hi, hj⟩ := swapAt_bounds h
  rw [swapAt_eq_some a i j hi hj] at h
  cases h
  simp

theorem swapAt_perm {α : Type} {a a1 : List α} {i j : Nat} (h : swapAt a i j = some a1) :
    a1.Perm a := by
  obtain ⟨hi, hj⟩ := swapAt_bounds h
  rw [swapAt_eq_some a i j hi hj] at h
  cases h
  exact set_set_perm_of_get a i j _ _ (List.getElem?_eq_getElem hi) (List.getElem?_eq_getElem hj)

theorem swapAt_get {α : Type} {a a1 : List α} {i j : Nat} (h : swapAt a i j = some a1)
    (k : Nat) : a1[k]? = if k = j then a[i]? else if k = i then a[j]? else a[k]? := by
  obtain ⟨hi, hj⟩ := swapAt_bounds h
  rw [swapAt_eq_some a i j hi hj] at h
  cases h
  simp only [List.getElem?_set, List.length_set]
  by_cases h1 : k = j
  · subst h1; simp [hj, hi]
  · by_cases h2 : k = i
    · subst h2; simp [hi, hj, Ne.symm h1, h1]
    · simp [h1, h2, Ne.symm h1, Ne.symm h2]

theorem swapAt_self {α : Type} (a : List α) (i : Nat) (hi : i < a.length) :
    swapAt a i i = some a := by
  rw [swapAt_eq_some a i i hi hi]
  congr 1
  apply List.ext_getElem? 
  intro k
  simp only [List.getElem?_set, List.length_set]
  by_cases h : i = k
  · subst h; simp [hi]
  · simp [h]
/-! ## The scanning loop of Partition -/

theorem PartitionLoop_spec {α : Type} (comp : α → α → Bool) (pv : α) (last : Nat) :
    ∀ (fuel it store : Nat) (a : List α), store ≤ it → it ≤ last → last < a.length →
      last - it ≤ fuel →
      ∃ a1 s, PartitionLoop comp pv last fuel it store a = some (a1, s) ∧
        store ≤ s ∧ s ≤ last ∧ s + it ≤ last + store ∧
        a1.length = a.length ∧ a1.Perm a ∧
        (∀ i, i < store ∨ last ≤ i → a1[i]? = a[i]?) ∧
        ((∀ i x, store ≤ i → i < it → a[i]? = some x → comp x pv = false) →
          (∀ i x, store ≤ i → i < s → a1[i]? = some x → comp x pv = true) ∧
          (∀ i x, s ≤ i → i < last → a1[i]? = some x → comp x pv = false)) := by
  intro fuel
  induction fuel with
  | zero =>
    intro it store a hsi hil hla hf
    have : it = last := by omega
    subst this
    refine ⟨a, store, by rw [PartitionLoop]; simp, le_refl _, hsi, by omega, rfl,
      List.Perm.refl _, fun _ _ => rfl, fun h => ⟨fun i x h1 h2 => by omega, fun i x h1 h2 h3 => h i x h1 h2 h3⟩⟩
  | succ fuel ih =>
    intro it store a hsi hil hla hf
    by_cases hit : it = last
    · subst hit
      refine ⟨a, store, by rw [PartitionLoop]; simp, le_refl _, hsi, by omega, rfl,
        List.Perm.refl _, fun _ _ => rfl, fun h => ⟨fun i x h1 h2 => by omega, fun i x h1 h2 h3 => h i x h1 h2 h3⟩⟩
    · have hitlt : it < a.length := by omega
      rw [PartitionLoop]
      simp only [hit, if_false, List.getElem?_eq_getElem hitlt]
      by_cases hc : comp a[it] pv = true
      · simp only [hc, if_true]
        have hsw := swapAt_eq_some a store it (by omega) hitlt
        rw [hsw]
        simp only []
        have hget := swapAt_get hsw
        obtain ⟨a2, s, he, h1, h2, h3, h4, h5, h6, h7⟩ :=
          ih (it + 1) (store + 1) _ (by omega) (by omega)
            (by rw [swapAt_length hsw]; exact hla) (by omega)
        refine ⟨a2, s, he, by omega, h2, by omega, by rw [h4, swapAt_length hsw],
          h5.trans (swapAt_perm hsw), ?_, ?_⟩
        · intro i hi
          rw [h6 i (by omega), hget i]
          have : i ≠ it := by omega
          have : i ≠ store := by omega
          simp [*]
        · intro hpre
          have hpost := h7 (by
            intro i x hi1 hi2 hx
            rw [hget i] at hx
            by_cases hii : i = it
            · subst hii
              simp only [if_true] at hx
              exact hpre store x (le_refl _) (by omega) hx
            · have : i ≠ store := by omega
              simp only [hii, this, if_false] at hx
              exact hpre i x (by omega) (by omega) hx)
          refine ⟨?_, hpost.2⟩
          intro i x hi1 hi2 hx
          by_cases hii : i = store
          · subst hii
            rw [h6 i (by omega), hget i] at hx
            by_cases hsi2 : i = it
            · subst hsi2
              simp only [if_true, List.getElem?_eq_getElem hitlt, Option.some.injEq] at hx
              rw [← hx]; exact hc
            · simp only [hsi2, if_false, if_true, List.getElem?_eq_getElem hitlt,
                Option.some.injEq] at hx
              rw [← hx]; exact hc
          · exact hpost.1 i x (by omega) hi2 hx
      · simp only [hc, if_false]
        obtain ⟨a2, s, he, h1, h2, h3, h4, h5, h6, h7⟩ :=
          ih (it + 1) store a (by omega) (by omega) hla (by omega)
        refine ⟨a2, s, he, h1, h2, by omega, h4, h5, h6, ?_⟩
        intro hpre
        apply h7
        intro i x hi1 hi2 hx
        by_cases hii : i = it
        · subst hii
          rw [List.getElem?_eq_getElem hitlt] at hx
          simp only [Option.some.injEq] at hx
          rw [← hx]
          simpa using hc
        · exact hpre i x hi1 (by omega) hx
/-! ## Partition -/

theorem Partition_spec {α : Type} (comp : α → α → Bool) (a : List α) (begin pivot endp : Nat)
    (hd : begin + 2 ≤ endp) (hbp : begin ≤ pivot) (hpe : pivot < endp) (hea : endp ≤ a.length) :
    ∃ a3 p pv, Partition comp a begin pivot endp = some (a3, p) ∧ a[pivot]? = some pv ∧
      begin ≤ p ∧ p < endp ∧ a3.length = a.length ∧ a3.Perm a ∧
      (∀ i, i < begin ∨ endp ≤ i → a3[i]? = a[i]?) ∧
      a3[p]? = some pv ∧
      (∀ i x, begin ≤ i → i < p → a3[i]? = some x → comp x pv = true) ∧
      (∀ i x, p < i → i < endp → a3[i]? = some x → comp x pv = false) := by
  have hpl : pivot < a.length := by omega
  have hnd : ¬ (distance begin endp < 2 ∨ pivot = endp) := by
    unfold distance; omega
  have hsw := swapAt_eq_some a pivot (endp - 1) hpl (by omega)
  have hget1 := swapAt_get hsw
  have hlen1 := swapAt_length hsw
  obtain ⟨a2, s, he, h1, h2, _, h4, h5, h6, h7⟩ :=
    PartitionLoop_spec comp a[pivot] (endp - 1) (endp - 1 - begin) begin begin _
      (le_refl _) (by omega) (by rw [hlen1]; omega) (le_refl _)
  have hsw2 := swapAt_eq_some a2 (endp - 1) s (by rw [h4, hlen1]; omega)
    (by rw [h4, hlen1]; omega)
  have hget2 := swapAt_get hsw2
  have hlast : a2[endp - 1]? = some a[pivot] := by
    rw [h6 (endp - 1) (Or.inr (le_refl _)), hget1 (endp - 1)]
    simp [List.getElem?_eq_getElem hpl]
  obtain ⟨h8, h9⟩ := h7 (fun i x hi1 hi2 => by omega)
  refine ⟨_, s, a[pivot], ?_, List.getElem?_eq_getElem hpl, h1, by omega,
    by rw [swapAt_length hsw2, h4, hlen1], ((swapAt_perm hsw2).trans h5).trans (swapAt_perm hsw),
    ?_, ?_, ?_, ?_⟩
  · unfold Partition
    simp only [hnd, if_false, List.getElem?_eq_getElem hpl]
    rw [hsw]
    simp only []
    rw [he]
    simp only []
    rw [hsw2]
  · intro i hi
    rw [hget2 i]
    have hi1 : i ≠ s := by omega
    have hi2 : i ≠ endp - 1 := by omega
    simp only [hi1, hi2, if_false]
    rw [h6 i (by omega), hget1 i]
    have hi3 : i ≠ pivot := by omega
    simp only [hi3, hi2, if_false]
  · rw [hget2 s]
    simp [hlast]
  · intro i x hi1 hi2 hx
    rw [hget2 i] at hx
    have hi3 : i ≠ s := by omega
    have hi4 : i ≠ endp - 1 := by omega
    simp only [hi3, hi4, if_false] at hx
    exact h8 i x hi1 hi2 hx
  · intro i x hi1 hi2 hx
    rw [hget2 i] at hx
    have hi3 : i ≠ s := by omega
    simp only [hi3, if_false] at hx
    by_cases hi4 : i = endp - 1
    · simp only [hi4, if_true] at hx
      exact h9 s x (le_refl _) (by omega) hx
    · simp only [hi4, if_false] at hx
      exact h9 i x (by omega) (by omega) hx
/-! ## Ranges of a sequence -/

theorem eq_take_seg_drop {α : Type} (a : List α) (b e : Nat) (hbe : b ≤ e) :
    a = a.take b ++ ((a.drop b).take (e - b) ++ a.drop e) := by
  have h1 : (a.drop b).take (e - b) ++ a.drop e = a.drop b := by
    have : a.drop e = (a.drop b).drop (e - b) := by
      rw [List.drop_drop]; congr 1; omega
    rw [this, List.take_append_drop]
  rw [h1, List.take_append_drop]

theorem take_eq_of_frame {α : Type} {a a1 : List α} {b e : Nat}
    (hf : ∀ i, i < b ∨ e ≤ i → a1[i]? = a[i]?) : a1.take b = a.take b := by
  apply List.ext_getElem?
  intro i
  by_cases hi : i < b
  · rw [List.getElem?_take_of_lt hi, List.getElem?_take_of_lt hi]
    exact hf i (Or.inl hi)
  · rw [List.getElem?_take_eq_none (by omega), List.getElem?_take_eq_none (by omega)]

theorem drop_eq_of_frame {α : Type} {a a1 : List α} {b e : Nat}
    (hf : ∀ i, i < b ∨ e ≤ i → a1[i]? = a[i]?) : a1.drop e = a.drop e := by
  apply List.ext_getElem?
  intro i
  rw [List.getElem?_drop, List.getElem?_drop]
  exact hf _ (Or.inr (by omega))

theorem seg_perm_of_frame {α : Type} {a a1 : List α} {b e : Nat} (hbe : b ≤ e)
    (hp : a1.Perm a) (hf : ∀ i, i < b ∨ e ≤ i → a1[i]? = a[i]?) :
    ((a1.drop b).take (e - b)).Perm ((a.drop b).take (e - b)) := by
  have h1 := eq_take_seg_drop a1 b e hbe
  have h2 := eq_take_seg_drop a b e hbe
  rw [take_eq_of_frame hf, drop_eq_of_frame hf] at h1
  rw [h1] at hp
  have hp2 : (a.take b ++ ((a1.drop b).take (e - b) ++ a.drop e)).Perm
      (a.take b ++ ((a.drop b).take (e - b) ++ a.drop e)) := by
    rw [← h2]; exact hp
  exact (List.perm_append_right_iff _).1 ((List.perm_append_left_iff _).1 hp2)

theorem getElem?_seg {α : Type} (a : List α) (b e i : Nat) (hi : i < e - b) :
    ((a.drop b).take (e - b))[i]? = a[b + i]? := by
  rw [List.getElem?_take_of_lt hi, List.getElem?_drop]

theorem range_mem_of_perm_frame {α : Type} {a a1 : List α} {b e : Nat} (hbe : b ≤ e)
    (hp : a1.Perm a) (hf : ∀ i, i < b ∨ e ≤ i → a1[i]? = a[i]?) (i : Nat) (x : α)
    (hi1 : b ≤ i) (hi2 : i < e) (hx : a1[i]? = some x) :
    ∃ j, b ≤ j ∧ j < e ∧ a[j]? = some x := by
  have hseg := seg_perm_of_frame hbe hp hf
  have hmem : x ∈ (a1.drop b).take (e - b) := by
    rw [List.mem_iff_getElem?]
    refine ⟨i - b, ?_⟩
    rw [getElem?_seg a1 b e (i - b) (by omega)]
    rw [show b + (i - b) = i by omega]
    exact hx
  have hmem2 := hseg.mem_iff.1 hmem
  rw [List.mem_iff_getElem?] at hmem2
  obtain ⟨j, hj⟩ := hmem2
  have hjlt : j < e - b := by
    by_contra hc
    rw [List.getElem?_take_eq_none (by omega)] at hj
    cases hj
  rw [getElem?_seg a b e j hjlt] at hj
  exact ⟨b + j, by omega, by omega, hj⟩

/-! ## QuickSort: termination, frame and permutation -/

theorem QuickSort_spec {α : Type} (comp : α → α → Bool) (rnd : Nat → Nat) :
    ∀ (fuel : Nat) (a : List α) (b e k : Nat), b ≤ e → e ≤ a.length → e - b ≤ fuel →
      ∃ a1 k1, QuickSort comp rnd fuel a b e k = some (a1, k1) ∧ a1.length = a.length ∧
        a1.Perm a ∧ (∀ i, i < b ∨ e ≤ i → a1[i]? = a[i]?) := by
  intro fuel
  induction fuel with
  | zero =>
    intro a b e k hbe hea hf
    refine ⟨a, k, ?_, rfl, List.Perm.refl _, fun _ _ => rfl⟩
    rw [QuickSort]
    have : toInt32 (distance b e) < 2 := toInt32_lt_two _ (by unfold distance; omega)
      (by unfold distance; omega)
    simp [this]
  | succ fuel ih =>
    intro a b e k hbe hea hf
    by_cases hd : toInt32 (distance b e) < 2
    · refine ⟨a, k, ?_, rfl, List.Perm.refl _, fun _ _ => rfl⟩
      rw [QuickSort]
      simp [hd]
    · have h2 : 2 ≤ distance b e := two_le_of_not_toInt32_lt _ (by unfold distance; omega) hd
      unfold distance at h2
      have hmod : rnd k % (e - b) < e - b := Nat.mod_lt _ (by omega)
      obtain ⟨a1, p, pv, hP, _, hp1, hp2, hl1, hperm1, hfr1, _, _, _⟩ :=
        Partition_spec comp a b (b + rnd k % (e - b)) e (by omega) (by omega) (by omega) hea
      obtain ⟨a2, k2, hQ1, hl2, hperm2, hfr2⟩ :=
        ih a1 b p (k + 1) hp1 (by omega) (by omega)
      obtain ⟨a3, k3, hQ2, hl3, hperm3, hfr3⟩ :=
        ih a2 (p + 1) e k2 (by omega) (by omega) (by omega)
      refine ⟨a3, k3, ?_, by omega, (hperm3.trans hperm2).trans hperm1, ?_⟩
      · rw [QuickSort]
        simp only [hd, if_false, hP, hQ1, hQ2]
      · intro i hi
        rw [hfr3 i (by omega), hfr2 i (by omega), hfr1 i hi]
/-! ## QuickSort: order -/

theorem PairwiseOrdered.adjacent {α : Type} {comp : α → α → Bool} {a : List α} {b e : Nat}
    (h : PairwiseOrdered comp a b e) : AdjacentOrdered comp a b e :=
  fun i x y h1 h2 hx hy => h i (i + 1) x y h1 (by omega) h2 hx hy

theorem QuickSort_sorted {α : Type} (comp : α → α → Bool) (rnd : Nat → Nat)
    (htot : ∀ x y, comp x y = true ∨ comp y x = true)
    (htr : ∀ x y z, comp x y = true → comp y z = true → comp x z = true) :
    ∀ (fuel : Nat) (a : List α) (b e k : Nat) (a1 : List α) (k1 : Nat), b ≤ e →
      e ≤ a.length → e - b < 2147483648 → e - b ≤ fuel →
      QuickSort comp rnd fuel a b e k = some (a1, k1) → PairwiseOrdered comp a1 b e := by
  intro fuel
  induction fuel with
  | zero =>
    intro a b e k a1 k1 hbe hea hsz hfu hQ
    rw [QuickSort] at hQ
    by_cases hd : toInt32 (distance b e) < 2
    · rw [toInt32_of_small _ (by unfold distance; omega) (by unfold distance; omega)] at hd
      unfold distance at hd
      intro i j x y h1 h2 h3
      omega
    · simp [hd] at hQ
  | succ fuel ih =>
    intro a b e k a1 k1 hbe hea hsz hfu hQ
    by_cases hd : toInt32 (distance b e) < 2
    · rw [toInt32_of_small _ (by unfold distance; omega) (by unfold distance; omega)] at hd
      unfold distance at hd
      intro i j x y h1 h2 h3
      omega
    · have h2 : 2 ≤ distance b e := two_le_of_not_toInt32_lt _ (by unfold distance; omega) hd
      unfold distance at h2
      have hmod : rnd k % (e - b) < e - b := Nat.mod_lt _ (by omega)
      obtain ⟨a2, p, pv, hP, _, hp1, hp2, hl2, hperm2, hfr2, hpiv, hL, hR⟩ :=
        Partition_spec comp a b (b + rnd k % (e - b)) e (by omega) (by omega) (by omega) hea
      obtain ⟨a3, k3, hQ1, hl3, hperm3, hfr3⟩ :=
        QuickSort_spec comp rnd fuel a2 b p (k + 1) hp1 (by omega) (by omega)
      obtain ⟨a4, k4, hQ2, hl4, hperm4, hfr4⟩ :=
        QuickSort_spec comp rnd fuel a3 (p + 1) e k3 (by omega) (by omega) (by omega)
      rw [QuickSort] at hQ
      simp only [hd, if_false, hP, hQ1, hQ2, Option.some.injEq, Prod.mk.injEq] at hQ
      obtain ⟨rfl, rfl⟩ := hQ
      have hs1 := ih a2 b p (k + 1) a3 k3 hp1 (by omega) (by omega) (by omega) hQ1
      have hs2 := ih a3 (p + 1) e k3 a4 k4 (by omega) (by omega) (by omega) (by omega) hQ2
      -- the left part after both recursive calls
      have hleft : ∀ i x, b ≤ i → i < p → a4[i]? = some x → comp x pv = true := by
        intro i x hi1 hi2 hx
        rw [hfr4 i (by omega)] at hx
        obtain ⟨j, hj1, hj2, hj3⟩ := range_mem_of_perm_frame hp1 hperm3 hfr3 i x hi1 hi2 hx
        exact hL j x hj1 hj2 hj3
      have hmid : a4[p]? = some pv := by
        rw [hfr4 p (by omega), hfr3 p (by omega)]; exact hpiv
      have hright : ∀ i x, p < i → i < e → a4[i]? = some x → comp pv x = true := by
        intro i x hi1 hi2 hx
        obtain ⟨j, hj1, hj2, hj3⟩ :=
          range_mem_of_perm_frame (by omega : p + 1 ≤ e) hperm4 hfr4 i x (by omega) hi2 hx
        rw [hfr3 j (by omega)] at hj3
        have := hR j x (by omega) hj2 hj3
        rcases htot x pv with h | h
        · rw [h] at this; cases this
        · exact h
      intro i j x y hi1 hij hj2 hx hy
      by_cases hjp : j < p
      · rw [hfr4 i (by omega)] at hx
        rw [hfr4 j (by omega)] at hy
        exact hs1 i j x y hi1 hij hjp hx hy
      · by_cases hjp2 : j = p
        · subst hjp2
          rw [hmid] at hy
          cases hy
          exact hleft i x hi1 hij hx
        · by_cases hip : i < p
          · exact htr x pv y (hleft i x hi1 hip hx) (hright j y (by omega) hj2 hy)
          · by_cases hip2 : i = p
            · subst hip2
              rw [hmid] at hx
              cases hx
              exact hright j y (by omega) hj2 hy
            · exact hs2 i j x y (by omega) hij hj2 hx hy
/-! ## Partition and QuickSort on a range that is already ordered -/

theorem AdjacentOrdered.pairwise {α : Type} {comp : α → α → Bool} {a : List α} {b e : Nat}
    (htr : ∀ x y z, comp x y = true → comp y z = true → comp x z = true)
    (hea : e ≤ a.length) (h : AdjacentOrdered comp a b e) : PairwiseOrdered comp a b e := by
  intro i j x y hi hij hj hx hy
  obtain ⟨d, rfl⟩ : ∃ d, j = i + 1 + d := ⟨j - (i + 1), by omega⟩
  clear hij
  induction d generalizing y with
  | zero => exact h i x y hi hj hx hy
  | succ d ih =>
    have hlt : i + 1 + d < a.length := by omega
    have h1 := ih a[i + 1 + d] (by omega) (List.getElem?_eq_getElem hlt)
    have h2 := h (i + 1 + d) a[i + 1 + d] y (by omega) hj (List.getElem?_eq_getElem hlt) hy
    exact htr _ _ _ h1 h2

theorem PartitionLoop_ordered_tail {α : Type} (comp : α → α → Bool) (a : List α)
    (p last : Nat) (pv w : α) (hpl : p ≤ last) (hla : last < a.length)
    (hw : a[last]? = some w)
    (hanti : ∀ x y, comp x y = true → comp y x = true → x = y)
    (hs : ∀ i j x y, p ≤ i → i ≤ j → j ≤ last → a[i]? = some x → a[j]? = some y →
      comp x y = true) :
    ∀ (fuel it store : Nat) (cur : List α), p ≤ store → store ≤ it → it ≤ last →
      last - it ≤ fuel → a[store]? = some pv →
      (∀ i x, store < i → i < it → a[i]? = some x → comp x pv = false) →
      (∀ k, cur[k]? = if k = last then some pv else if k = store then some w else a[k]?) →
      ∃ cur1 s, PartitionLoop comp pv last fuel it store cur = some (cur1, s) ∧ p ≤ s ∧ s ≤ last ∧
        a[s]? = some pv ∧
        (∀ k, cur1[k]? = if k = last then some pv else if k = s then some w else a[k]?) := by
  intro fuel
  induction fuel with
  | zero =>
    intro it store cur h1 h2 h3 h4 h5 h6 h7
    have : it = last := by omega
    subst this
    exact ⟨cur, store, by rw [PartitionLoop]; simp, h1, h2, h5, h7⟩
  | succ fuel ih =>
    intro it store cur h1 h2 h3 h4 h5 h6 h7
    by_cases hit : it = last
    · subst hit
      exact ⟨cur, store, by rw [PartitionLoop]; simp, h1, h2, h5, h7⟩
    · have hpvw : comp pv w = true := hs store last pv w h1 (by omega) (le_refl _) h5 hw
      rw [PartitionLoop]
      simp only [hit, if_false]
      by_cases hst : it = store
      · subst hst
        have hcit : cur[it]? = some w := by rw [h7 it]; simp [hit]
        have hitc : it < cur.length := (List.getElem?_eq_some_iff.1 hcit).1
        rw [hcit]
        simp only []
        by_cases hc : comp w pv = true
        · have hwpv : w = pv := hanti _ _ hc hpvw
          subst hwpv
          simp only [hc, if_true, swapAt_self cur it hitc]
          have hnext : a[it + 1]? = some w := by
            have hlt : it + 1 < a.length := by omega
            have e1 := hs it (it + 1) w a[it + 1] h1 (by omega) (by omega) h5
              (List.getElem?_eq_getElem hlt)
            have e2 := hs (it + 1) last a[it + 1] w (by omega) (by omega) (le_refl _)
              (List.getElem?_eq_getElem hlt) hw
            rw [List.getElem?_eq_getElem hlt, hanti _ _ e2 e1]
          refine ih (it + 1) (it + 1) cur (by omega) (le_refl _) (by omega) (by omega) hnext
            (fun i x hi1 hi2 => by omega) ?_
          intro k
          rw [h7 k]
          by_cases hk1 : k = last
          · simp [hk1]
          · by_cases hk2 : k = it
            · subst hk2
              simp [hk1, h5]
            · by_cases hk3 : k = it + 1
              · subst hk3
                simp [hk1, hnext]
              · simp [hk1, hk2, hk3]
        · simp only [hc, if_false]
          exact ih (it + 1) it cur h1 (by omega) (by omega) (by omega) h5
            (fun i x hi1 hi2 => by omega) h7
      · have hitlt : it < a.length := by omega
        have hcit : cur[it]? = some a[it] := by
          rw [h7 it]; simp [hit, hst]
        rw [hcit]
        simp only []
        by_cases hc : comp a[it] pv = true
        · have hpvx : comp pv a[it] = true :=
            hs store it pv a[it] h1 (by omega) (by omega) h5 (List.getElem?_eq_getElem hitlt)
          have hxpv : a[it] = pv := hanti _ _ hc hpvx
          have hadj : it = store + 1 := by
            by_contra hne
            have hlt : store + 1 < a.length := by omega
            have e1 := h6 (store + 1) a[store + 1] (by omega) (by omega)
              (List.getElem?_eq_getElem hlt)
            have e2 := hs (store + 1) it a[store + 1] a[it] (by omega) (by omega) (by omega)
              (List.getElem?_eq_getElem hlt) (List.getElem?_eq_getElem hitlt)
            rw [hxpv, e1] at e2
            cases e2
          subst hadj
          have hcs : cur[store]? = some w := by
            rw [h7 store]
            have : store ≠ last := by omega
            simp [this]
          have hsc : store < cur.length := (List.getElem?_eq_some_iff.1 hcs).1
          have hic : store + 1 < cur.length := (List.getElem?_eq_some_iff.1 hcit).1
          have hsw := swapAt_eq_some cur store (store + 1) hsc hic
          simp only [hc, if_true, hsw]
          have hget := swapAt_get hsw
          refine ih (store + 1 + 1) (store + 1) _ (by omega) (by omega) (by omega) (by omega)
            (by rw [List.getElem?_eq_getElem hitlt, hxpv]) (fun i x hi1 hi2 => by omega) ?_
          intro k
          rw [hget k]
          by_cases hk1 : k = store + 1
          · subst hk1
            simp [hit, hcs]
          · by_cases hk2 : k = store
            · subst hk2
              have : k ≠ last := by omega
              simp [this, hcit, hxpv, h5]
            · simp only [hk1, hk2, if_false]
              rw [h7 k]
              simp [hk2]
        · simp only [hc, if_false]
          refine ih (it + 1) store cur h1 (by omega) (by omega) (by omega) h5 ?_ h7
          intro i x hi1 hi2 hx
          by_cases hii : i = it
          · subst hii
            rw [List.getElem?_eq_getElem hitlt] at hx
            cases hx
            simpa using hc
          · exact h6 i x hi1 (by omega) hx
theorem PartitionLoop_ordered_head {α : Type} (comp : α → α → Bool) (a : List α)
    (b p last : Nat) (pv w : α) (hbp : b ≤ p) (hpl : p ≤ last) (hla : last < a.length)
    (hpv : a[p]? = some pv) (hw : a[last]? = some w)
    (hanti : ∀ x y, comp x y = true → comp y x = true → x = y)
    (hs : ∀ i j x y, b ≤ i → i ≤ j → j ≤ last → a[i]? = some x → a[j]? = some y →
      comp x y = true) :
    ∀ (fuel it : Nat) (cur : List α), b ≤ it → it ≤ p → last - it ≤ fuel →
      (∀ k, cur[k]? = if k = last then some pv else if k = p then some w else a[k]?) →
      ∃ cur1 s, PartitionLoop comp pv last fuel it it cur = some (cur1, s) ∧ p ≤ s ∧
        s ≤ last ∧ a[s]? = some pv ∧
        (∀ k, cur1[k]? = if k = last then some pv else if k = s then some w else a[k]?) := by
  have hs2 : ∀ i j x y, p ≤ i → i ≤ j → j ≤ last → a[i]? = some x → a[j]? = some y →
      comp x y = true := fun i j x y hi => hs i j x y (by omega)
  intro fuel
  induction fuel with
  | zero =>
    intro it cur h1 h2 h3 h4
    have : it = p := by omega
    subst this
    exact PartitionLoop_ordered_tail comp a it last pv w hpl hla hw hanti hs2 0 it it cur
      (le_refl _) (le_refl _) hpl h3 hpv (fun i x hi1 hi2 => by omega) h4
  | succ fuel ih =>
    intro it cur h1 h2 h3 h4
    by_cases hip : it = p
    · subst hip
      exact PartitionLoop_ordered_tail comp a it last pv w hpl hla hw hanti hs2 (fuel + 1) it
        it cur (le_refl _) (le_refl _) hpl h3 hpv (fun i x hi1 hi2 => by omega) h4
    · have hit : it ≠ last := by omega
      have hitlt : it < a.length := by omega
      have hcit : cur[it]? = some a[it] := by
        rw [h4 it]; simp [hit, hip]
      have hitc : it < cur.length := (List.getElem?_eq_some_iff.1 hcit).1
      have hc : comp a[it] pv = true :=
        hs it p a[it] pv h1 (by omega) hpl (List.getElem?_eq_getElem hitlt) hpv
      rw [PartitionLoop]
      simp only [hit, if_false, hcit, hc, if_true, swapAt_self cur it hitc]
      exact ih (it + 1) cur (by omega) (by omega) (by omega) h4

theorem Partition_ordered {α : Type} (comp : α → α → Bool) (a : List α)
    (begin pivot endp : Nat) (hd : begin + 2 ≤ endp) (hbp : begin ≤ pivot) (hpe : pivot < endp)
    (hea : endp ≤ a.length)
    (hrefl : ∀ x, comp x x = true)
    (hanti : ∀ x y, comp x y = true → comp y x = true → x = y)
    (hs : PairwiseOrdered comp a begin endp) :
    ∃ p, Partition comp a begin pivot endp = some (a, p) ∧ begin ≤ p ∧ p < endp := by
  have hpl : pivot < a.length := by omega
  have hll : endp - 1 < a.length := by omega
  have hnd : ¬ (distance begin endp < 2 ∨ pivot = endp) := by
    unfold distance; omega
  have hs1 : ∀ i j x y, begin ≤ i → i ≤ j → j ≤ endp - 1 → a[i]? = some x → a[j]? = some y →
      comp x y = true := by
    intro i j x y hi hij hj hx hy
    by_cases hij2 : i = j
    · subst hij2
      rw [hx] at hy
      cases hy
      exact hrefl x
    · exact hs i j x y hi (by omega) (by omega) hx hy
  have hsw := swapAt_eq_some a pivot (endp - 1) hpl hll
  have hget1 := swapAt_get hsw
  obtain ⟨cur1, s, he, h1, h2, h3, h4⟩ :=
    PartitionLoop_ordered_head comp a begin pivot (endp - 1) a[pivot] a[endp - 1] hbp
      (by omega) hll (List.getElem?_eq_getElem hpl) (List.getElem?_eq_getElem hll) hanti hs1
      (endp - 1 - begin) begin _ (le_refl _) hbp (le_refl _) (by
        intro k
        rw [hget1 k]
        simp [List.getElem?_eq_getElem hpl, List.getElem?_eq_getElem hll])
  have hlen : cur1.length = a.length := by
    have e1 : cur1[endp - 1]? = some a[pivot] := by rw [h4]; simp
    have e2 := (List.getElem?_eq_some_iff.1 e1).1
    by_contra hne
    rcases Nat.lt_or_gt_of_ne hne with hlt | hgt
    · have e3 := h4 cur1.length
      rw [List.getElem?_eq_none (le_refl _)] at e3
      have n1 : cur1.length ≠ endp - 1 := by omega
      have n2 : cur1.length ≠ s := by omega
      simp only [n1, n2, if_false] at e3
      rw [List.getElem?_eq_getElem hlt] at e3
      cases e3
    · have e3 := h4 a.length
      have n1 : a.length ≠ endp - 1 := by omega
      have n2 : a.length ≠ s := by omega
      simp only [n1, n2, if_false] at e3
      rw [List.getElem?_eq_none (le_refl _), List.getElem?_eq_getElem hgt] at e3
      cases e3
  have hsw2 := swapAt_eq_some cur1 (endp - 1) s (by omega) (by omega)
  have hget2 := swapAt_get hsw2
  refine ⟨s, ?_, by omega, by omega⟩
  unfold Partition
  simp only [hnd, if_false, List.getElem?_eq_getElem hpl]
  rw [hsw]
  simp only []
  rw [he]
  simp only []
  rw [hsw2]
  simp only [Option.some.injEq, Prod.mk.injEq, and_true]
  apply List.ext_getElem?
  intro k
  rw [hget2 k]
  by_cases hk1 : k = s
  · subst hk1
    simp only [if_true]
    rw [h4 (endp - 1)]
    simp [h3]
  · by_cases hk2 : k = endp - 1
    · subst hk2
      simp only [hk1, if_false, if_true]
      rw [h4 s]
      have : s ≠ endp - 1 := fun h => hk1 h.symm
      simp [this, List.getElem?_eq_getElem hll]
    · simp only [hk1, hk2, if_false]
      rw [h4 k]
      simp [hk1, hk2]

theorem QuickSort_ordered {α : Type} (comp : α → α → Bool) (rnd : Nat → Nat)
    (hrefl : ∀ x, comp x x = true)
    (hanti : ∀ x y, comp x y = true → comp y x = true → x = y) :
    ∀ (fuel : Nat) (a : List α) (b e k : Nat), b ≤ e → e ≤ a.length → e - b ≤ fuel →
      PairwiseOrdered comp a b e →
      ∃ k1, QuickSort comp rnd fuel a b e k = some (a, k1) := by
  intro fuel
  induction fuel with
  | zero =>
    intro a b e k hbe hea hf _
    refine ⟨k, ?_⟩
    rw [QuickSort]
    have : toInt32 (distance b e) < 2 := toInt32_lt_two _ (by unfold distance; omega)
      (by unfold distance; omega)
    simp [this]
  | succ fuel ih =>
    intro a b e k hbe hea hf hs
    by_cases hd : toInt32 (distance b e) < 2
    · refine ⟨k, ?_⟩
      rw [QuickSort]
      simp [hd]
    · have h2 : 2 ≤ distance b e := two_le_of_not_toInt32_lt _ (by unfold distance; omega) hd
      unfold distance at h2
      have hmod : rnd k % (e - b) < e - b := Nat.mod_lt _ (by omega)
      obtain ⟨p, hP, hp1, hp2⟩ :=
        Partition_ordered comp a b (b + rnd k % (e - b)) e (by omega) (by omega) (by omega) hea
          hrefl hanti hs
      obtain ⟨k2, hQ1⟩ := ih a b p (k + 1) hp1 (by omega) (by omega)
        (fun i j x y h1 h2 h3 => hs i j x y h1 h2 (by omega))
      obtain ⟨k3, hQ2⟩ := ih a (p + 1) e k2 (by omega) (by omega) (by omega)
        (fun i j x y h1 h2 h3 => hs i j x y (by omega) h2 h3)
      refine ⟨k3, ?_⟩
      rw [QuickSort]
      simp only [hd, if_false, hP, hQ1, hQ2]
/-! ## RaddixSort: one pass -/

theorem bucketIndex_eq (base powerBase : Nat) (x : Int) (hp : powerBase ≠ 0) (hb : base ≠ 0) :
    bucketIndex base powerBase x = some (digitOf base powerBase x) := by
  unfold bucketIndex digitOf
  simp [hp, hb]

theorem digitOf_lt (base powerBase : Nat) (x : Int) (hb : base ≠ 0) :
    digitOf base powerBase x < base :=
  Nat.mod_lt _ (Nat.pos_of_ne_zero hb)

theorem distribute_spec (base powerBase : Nat) (a : List Int) (hp : powerBase ≠ 0)
    (hb : base ≠ 0) :
    ∀ (n it : Nat) (buckets : List (List Int)), it + n ≤ a.length → buckets.length = base →
      ∃ b1, distribute base powerBase a n it buckets = some b1 ∧ b1.length = base ∧
        ∀ d q, buckets[d]? = some q →
          b1[d]? = some (q ++ ((a.drop it).take n).filter
            (fun x => decide (digitOf base powerBase x = d))) := by
  intro n
  induction n with
  | zero =>
    intro it buckets _ hl
    exact ⟨buckets, rfl, hl, fun d q hq => by simpa using hq⟩
  | succ n ih =>
    intro it buckets hit hl
    have hlt : it < a.length := by omega
    obtain ⟨x, hx⟩ : ∃ x, a[it]? = some x := ⟨_, List.getElem?_eq_getElem hlt⟩
    have hdlt : digitOf base powerBase x < buckets.length := by
      rw [hl]; exact digitOf_lt base powerBase _ hb
    obtain ⟨q0, hq0⟩ : ∃ q0, buckets[digitOf base powerBase x]? = some q0 :=
      ⟨_, List.getElem?_eq_getElem hdlt⟩
    obtain ⟨b1, he, hl1, hb1⟩ := ih (it + 1)
      (buckets.set (digitOf base powerBase x) (q0 ++ [x])) (by omega) (by simpa using hl)
    refine ⟨b1, ?_, hl1, ?_⟩
    · rw [distribute]
      simp only [hx, bucketIndex_eq base powerBase _ hp hb, hq0]
      exact he
    · intro d q hq
      have hdrop : (a.drop it).take (n + 1) = x :: (a.drop (it + 1)).take n := by
        rw [List.drop_eq_getElem_cons hlt, List.take_succ_cons]
        congr 1
        rw [List.getElem?_eq_getElem hlt] at hx
        exact Option.some.inj hx
      rw [hdrop]
      by_cases hd : digitOf base powerBase x = d
      · subst hd
        rw [hq0] at hq
        cases hq
        rw [hb1 _ (q0 ++ [x]) (by
          rw [List.getElem?_set]
          simp [hdlt])]
        simp [List.filter_cons]
      · rw [hb1 d q (by
          rw [List.getElem?_set]
          simp [hd, hq])]
        simp [List.filter_cons, hd]

theorem set_eq_take_cons_drop_of_lt (a : List Int) (s : Nat) (x : Int) (h : s < a.length) :
    a.set s x = a.take s ++ x :: a.drop (s + 1) := by
  rw [List.set_eq_take_append_cons_drop]
  simp [h]

theorem drainQueue_spec :
    ∀ (q a : List Int) (s : Nat), s + q.length ≤ a.length →
      drainQueue q a s = some (a.take s ++ q ++ a.drop (s + q.length), s + q.length)
  | [], a, s, _ => by simp [drainQueue]
  | x :: q, a, s, h => by
    have h0 : s + (q.length + 1) ≤ a.length := by simpa using h
    have h1 : s < a.length := by omega
    rw [drainQueue]
    simp only [h1, if_true]
    rw [drainQueue_spec q (a.set s x) (s + 1) (by simp; omega)]
    have hset : a.set s x = (a.take s ++ [x]) ++ a.drop (s + 1) := by
      rw [set_eq_take_cons_drop_of_lt a s x h1]; simp
    have hl : (a.take s ++ [x]).length = s + 1 := by
      simp only [List.length_append, List.length_take, List.length_singleton]
      omega
    have e1 : (a.set s x).take (s + 1) = a.take s ++ [x] := by
      rw [hset]; exact List.take_left' hl
    have e2 : (a.set s x).drop (s + 1 + q.length) = a.drop (s + 1 + q.length) := by
      rw [hset, ← hl, List.drop_append, List.drop_drop, hl]
    rw [e1, e2]
    simp only [List.length_cons, List.append_assoc, List.singleton_append, Option.some.injEq,
      Prod.mk.injEq]
    constructor
    · congr 3; omega
    · omega

theorem drainBuckets_spec :
    ∀ (bs : List (List Int)) (a : List Int) (s : Nat), s + bs.flatten.length ≤ a.length →
      drainBuckets bs a s = some (List.replicate bs.length [],
        a.take s ++ bs.flatten ++ a.drop (s + bs.flatten.length), s + bs.flatten.length)
  | [], a, s, _ => by simp [drainBuckets]
  | q :: rest, a, s, h => by
    have hfl : (q :: rest).flatten = q ++ rest.flatten := rfl
    rw [hfl, List.length_append] at h
    rw [drainBuckets, drainQueue_spec q a s (by omega)]
    simp only []
    have hlen : (a.take s ++ q ++ a.drop (s + q.length)).length = a.length := by
      simp only [List.length_append, List.length_take, List.length_drop]
      omega
    rw [drainBuckets_spec rest _ (s + q.length) (by rw [hlen]; omega)]
    simp only [Option.some.injEq, Prod.mk.injEq, List.length_cons, List.replicate_succ, hfl,
      List.length_append, true_and]
    constructor
    · have e1 : (a.take s ++ q ++ a.drop (s + q.length)).take (s + q.length) = a.take s ++ q := by
        apply List.take_left'
        simp only [List.length_append, List.length_take]
        omega
      have e2 : (a.take s ++ q ++ a.drop (s + q.length)).drop (s + q.length + rest.flatten.length)
          = a.drop (s + (q.length + rest.flatten.length)) := by
        have : s + q.length + rest.flatten.length
            = (a.take s ++ q).length + rest.flatten.length := by
          simp only [List.length_append, List.length_take]
          omega
        rw [this, List.drop_append, List.drop_drop]
        congr 1
        omega
      rw [e1, e2]
      simp
    · omega
/-! ## Stable bucketing -/

theorem bucketed_succ (n : Nat) (key : Int → Nat) (l : List Int) :
    bucketed (n + 1) key l = bucketed n key l ++ l.filter (fun x => decide (key x = n)) := by
  unfold bucketed
  rw [List.range_succ]
  simp

theorem bucketed_perm_filter (key : Int → Nat) (l : List Int) :
    ∀ n, (bucketed n key l).Perm (l.filter (fun x => decide (key x < n)))
  | 0 => by simp [bucketed]
  | n + 1 => by
    rw [bucketed_succ]
    have h1 := bucketed_perm_filter key l n
    have h2 := List.filter_append_perm (fun x => decide (key x < n))
      (l.filter (fun x => decide (key x < n + 1)))
    simp only [List.filter_filter] at h2
    have e1 : (fun x => decide (key x < n) && decide (key x < n + 1))
        = (fun x => decide (key x < n)) := by
      funext x
      by_cases h : key x < n
      · have : key x < n + 1 := by omega
        simp [h, this]
      · simp [h]
    have e2 : (fun x => (!decide (key x < n)) && decide (key x < n + 1))
        = (fun x => decide (key x = n)) := by
      funext x
      by_cases h : key x = n
      · simp [h]
      · by_cases h3 : key x < n
        · simp [h, h3]
        · have : ¬ key x < n + 1 := by omega
          simp [h, h3, this]
    rw [e1, e2] at h2
    exact (List.Perm.append_right _ h1).trans h2

theorem bucketed_perm (base : Nat) (key : Int → Nat) (l : List Int)
    (h : ∀ x ∈ l, key x < base) : (bucketed base key l).Perm l := by
  have h1 := bucketed_perm_filter key l base
  have h2 : l.filter (fun x => decide (key x < base)) = l := by
    rw [List.filter_eq_self]
    intro x hx
    simpa using h x hx
  rwa [h2] at h1

theorem RaddixPass_spec (base powerBase : Nat) (a : List Int) (b e : Nat)
    (hp : powerBase ≠ 0) (hb : base ≠ 0) (hbe : b ≤ e) (hea : e ≤ a.length) :
    RaddixPass base powerBase a b e (List.replicate base []) =
      some (List.replicate base [],
        a.take b ++ bucketed base (digitOf base powerBase) ((a.drop b).take (e - b))
          ++ a.drop e, e) := by
  obtain ⟨b1, he, hl1, hb1⟩ := distribute_spec base powerBase a hp hb (e - b) b
    (List.replicate base []) (by omega) (by simp)
  have hb1eq : b1 = (List.range base).map (fun d => ((a.drop b).take (e - b)).filter
      (fun x => decide (digitOf base powerBase x = d))) := by
    apply List.ext_getElem?
    intro d
    by_cases hd : d < base
    · rw [hb1 d [] (by simp [hd])]
      simp [List.getElem?_range hd]
    · rw [List.getElem?_eq_none (by omega), List.getElem?_eq_none (by simp; omega)]
  have hfl : b1.flatten = bucketed base (digitOf base powerBase) ((a.drop b).take (e - b)) := by
    rw [hb1eq]; rfl
  have hlen : b1.flatten.length = e - b := by
    rw [hfl, (bucketed_perm base _ _ (fun x _ => digitOf_lt base powerBase x hb)).length_eq]
    simp only [List.length_take, List.length_drop]
    omega
  unfold RaddixPass
  rw [he]
  simp only []
  rw [drainBuckets_spec b1 a b (by omega), hlen, hfl, hl1]
  have : b + (e - b) = e := by omega
  rw [this]
/-! ## RaddixSort: the loop over the place values -/

theorem pass_result_frame (a X : List Int) (b e : Nat) (hbe : b ≤ e) (hea : e ≤ a.length)
    (hX : X.length = e - b) :
    (a.take b ++ X ++ a.drop e).length = a.length ∧
    (a.take b ++ X ++ a.drop e).take b = a.take b ∧
    (a.take b ++ X ++ a.drop e).drop e = a.drop e ∧
    ((a.take b ++ X ++ a.drop e).drop b).take (e - b) = X := by
  have hlt : (a.take b).length = b := by
    simp only [List.length_take]; omega
  refine ⟨?_, ?_, ?_, ?_⟩
  · simp only [List.length_append, List.length_take, List.length_drop]
    omega
  · rw [List.append_assoc]
    exact List.take_left' hlt
  · apply List.drop_left'
    simp only [List.length_append, List.length_take]
    omega
  · rw [List.append_assoc, List.drop_left' hlt]
    exact List.take_left' hX

theorem RaddixLoop_spec (base b e : Nat) (hb2 : 2 ≤ base) (hb32 : base < 4294967296)
    (P : Nat → List Int → Prop)
    (hstep : ∀ pB l, 1 ≤ pB → pB < INT_MAX → l.length = e - b → P pB l →
      P (pB * base) (bucketed base (digitOf base pB) l)) :
    ∀ (fuel pB : Nat) (a : List Int) (passes : Nat), b ≤ e → e ≤ a.length → 1 ≤ pB →
      INT_MAX ≤ pB * 2 ^ fuel → P pB ((a.drop b).take (e - b)) →
      ∃ a1 n, RaddixLoop base b e fuel pB a (List.replicate base []) passes
          = some (a1, List.replicate base [], passes + n) ∧
        a1.length = a.length ∧ a1.take b = a.take b ∧ a1.drop e = a.drop e ∧
        P (pB * base ^ n) ((a1.drop b).take (e - b)) ∧ INT_MAX ≤ pB * base ^ n ∧
        (∀ m, m < n → pB * base ^ m < INT_MAX) := by
  intro fuel
  induction fuel with
  | zero =>
    intro pB a passes hbe hea h1 hf hP
    have hnot : ¬ pB < INT_MAX := by simp at hf; omega
    refine ⟨a, 0, ?_, rfl, rfl, rfl, by simpa using hP, by simpa using hf,
      fun m hm => by omega⟩
    rw [RaddixLoop]
    simp [hnot]
  | succ fuel ih =>
    intro pB a passes hbe hea h1 hf hP
    by_cases hlt : pB < INT_MAX
    · have hmul : pB * base < 18446744073709551616 := by
        have h3 : pB * base < 2147483647 * 4294967296 :=
          Nat.mul_lt_mul'' (by unfold INT_MAX at hlt; exact hlt) hb32
        omega
      have hmod : pB * base % 18446744073709551616 = pB * base := Nat.mod_eq_of_lt hmul
      have hseg : ((a.drop b).take (e - b)).length = e - b := by
        simp only [List.length_take, List.length_drop]; omega
      have hXlen : (bucketed base (digitOf base pB) ((a.drop b).take (e - b))).length = e - b := by
        rw [(bucketed_perm base _ _ (fun x _ => digitOf_lt base pB x (by omega))).length_eq, hseg]
      obtain ⟨f1, f2, f3, f4⟩ := pass_result_frame a _ b e hbe hea hXlen
      have hP2 := hstep pB _ h1 hlt hseg hP
      have hf2 : INT_MAX ≤ pB * base * 2 ^ fuel := by
        have e1 : pB * 2 ^ (fuel + 1) = pB * 2 * 2 ^ fuel := by ring
        have e2 : pB * 2 * 2 ^ fuel ≤ pB * base * 2 ^ fuel :=
          Nat.mul_le_mul_right _ (Nat.mul_le_mul_left _ hb2)
        omega
      have hpos : 1 ≤ pB * base := Nat.one_le_iff_ne_zero.2 (Nat.mul_ne_zero (by omega) (by omega))
      obtain ⟨a1, n, he, g1, g2, g3, g4, g5, g6⟩ :=
        ih (pB * base) (a.take b ++ bucketed base (digitOf base pB) ((a.drop b).take (e - b))
          ++ a.drop e) (passes + 1) hbe (by omega) hpos hf2 (by rw [f4]; exact hP2)
      refine ⟨a1, n + 1, ?_, by omega, by rw [g2, f2], by rw [g3, f3], ?_, ?_, ?_⟩
      · rw [RaddixLoop]
        simp only [hlt, if_true]
        rw [RaddixPass_spec base pB a b e (by omega) (by omega) hbe hea]
        simp only [hmod]
        rw [he]
        simp only [Option.some.injEq, Prod.mk.injEq, true_and]
        omega
      · rw [pow_succ']
        rw [← Nat.mul_assoc]
        exact g4
      · rw [pow_succ', ← Nat.mul_assoc]
        exact g5
      · intro m hm
        cases m with
        | zero => simpa using hlt
        | succ m =>
          rw [pow_succ', ← Nat.mul_assoc]
          exact g6 m (by omega)
    · refine ⟨a, 0, ?_, rfl, rfl, rfl, by simpa using hP, by simp; omega,
        fun m hm => by omega⟩
      rw [RaddixLoop]
      simp [hlt]
theorem RaddixSort_spec (base b e : Nat) (hb2 : 2 ≤ base) (hb32 : base < 4294967296)
    (P : Nat → List Int → Prop)
    (hstep : ∀ pB l, 1 ≤ pB → pB < INT_MAX → l.length = e - b → P pB l →
      P (pB * base) (bucketed base (digitOf base pB) l))
    (fuel : Nat) (a : List Int) (hbe : b + 2 ≤ e) (hea : e ≤ a.length) (hf : 31 ≤ fuel)
    (hP : P 1 ((a.drop b).take (e - b))) :
    ∃ a1 n, RaddixSort fuel a b e base = some (a1, n) ∧
      a1.length = a.length ∧ a1.take b = a.take b ∧ a1.drop e = a.drop e ∧
      P (base ^ n) ((a1.drop b).take (e - b)) ∧ INT_MAX ≤ base ^ n ∧
      (∀ m, m < n → base ^ m < INT_MAX) := by
  have hfuel : INT_MAX ≤ 1 * 2 ^ fuel := by
    have : 2 ^ 31 ≤ 2 ^ fuel := Nat.pow_le_pow_right (by omega) hf
    unfold INT_MAX
    omega
  obtain ⟨a1, n, he, g1, g2, g3, g4, g5, g6⟩ :=
    RaddixLoop_spec base b e hb2 hb32 P hstep fuel 1 a 0 (by omega) hea (le_refl _) hfuel hP
  refine ⟨a1, n, ?_, g1, g2, g3, by simpa using g4, by simpa using g5, fun m hm => by
    simpa using g6 m hm⟩
  have hnd : ¬ distance b e < 2 := by unfold distance; omega
  unfold RaddixSort
  simp only [hnd, if_false]
  rw [he]
  simp

theorem QuickSort_of_int_distance_lt {α : Type} (comp : α → α → Bool) (rnd : Nat → Nat)
    (fuel : Nat) (a : List α) (b e k : Nat) (h : toInt32 (distance b e) < 2) :
    QuickSort comp rnd fuel a b e k = some (a, k) := by
  rw [QuickSort.eq_def]
  simp only [h, if_true]

theorem replicate_append_singleton_get (n : Nat) (x y : Int) :
    (List.replicate (n + 1) x ++ [y]).length = n + 2 ∧
    (List.replicate (n + 1) x ++ [y])[n]? = some x ∧
    (List.replicate (n + 1) x ++ [y])[n + 1]? = some y := by
  refine ⟨by simp, ?_, ?_⟩
  · rw [List.getElem?_append_left (by simp)]
    exact List.getElem?_replicate_of_lt (by omega)
  · rw [List.getElem?_append_right (by simp)]
    simp

/-! ## RaddixSort: order -/

theorem digitOf_of_nonneg (base powerBase : Nat) (x : Int) (h0 : 0 ≤ x)
    (h1 : x < 2147483648) : digitOf base powerBase x = x.toNat / powerBase % base := by
  have hq : x.toNat / powerBase ≤ x.toNat := Nat.div_le_self _ _
  have e1 : toSizeT x = x.toNat := by
    unfold toSizeT
    congr 1
    omega
  unfold digitOf
  rw [e1]
  generalize x.toNat / powerBase = q at hq
  have e2 : toInt32 (q : Int) = (q : Int) := toInt32_of_small _ (by omega) (by omega)
  have e3 : toUInt32 (q : Int) = q := by
    unfold toUInt32
    omega
  rw [e2, e3]

/-- The example of the specification: `[170, 45, 75, 90, 802, 24, 2, 66]` with base 10. -/
theorem RaddixSort_example :
    RaddixSort 31 [170, 45, 75, 90, 802, 24, 2, 66] 0 8 10
      = some ([2, 24, 45, 66, 75, 90, 170, 802], 10) := by
  decide!

/-- The example of the specification: `[0, 0, 0]` with the default base 10. -/
theorem RaddixSort_example_zeros : RaddixSort 31 [0, 0, 0] 0 3 10 = some ([0, 0, 0], 10) := by
  decide!

theorem pairwise_of_PairwiseOrdered {α : Type} (comp : α → α → Bool) (a : List α)
    (h : PairwiseOrdered comp a 0 a.length) : a.Pairwise (fun x y => comp x y = true) := by
  rw [List.pairwise_iff_getElem]
  intro i j hi hj hij
  exact h i j _ _ (Nat.zero_le _) hij hj (List.getElem?_eq_getElem hi)
    (List.getElem?_eq_getElem hj)

/-- The order invariant of `QuickSort` where it holds: for every comparator that is total and
transitive, every stream of `rand()` values and every range `[b, e)` of fewer than `2 ^ 31`
elements, the comparator holds between any two positions `i < j` of the range after the call. -/
theorem QuickSort_order {α : Type} (comp : α → α → Bool) (rnd : Nat → Nat)
    (htot : ∀ x y, comp x y = true ∨ comp y x = true)
    (htr : ∀ x y z, comp x y = true → comp y z = true → comp x z = true)
    (a : List α) (b e k fuel : Nat) (hbe : b ≤ e) (hea : e ≤ a.length)
    (hsz : e - b < 2147483648) (hf : e - b ≤ fuel) :
    ∃ out k1, QuickSort comp rnd fuel a b e k = some (out, k1) ∧ out.length = a.length ∧
      out.Perm a ∧ PairwiseOrdered comp out b e ∧ AdjacentOrdered comp out b e := by
  obtain ⟨out, k1, h1, h2, h3, _⟩ := QuickSort_spec comp rnd fuel a b e k hbe hea hf
  have h5 := QuickSort_sorted comp rnd htot htr fuel a b e k out k1 hbe hea hsz hf h1
  exact ⟨out, k1, h1, h2, h3, h5, h5.adjacent⟩

/-- The example of the specification: `[5, 3, 8, 1, 9, 2]` sorted with `<=` yields
`[1, 2, 3, 5, 8, 9]` for every stream of `rand()` values. -/
theorem QuickSort_example (rnd : Nat → Nat) (k : Nat) :
    ∃ k1, QuickSort (fun x y : Int => decide (x ≤ y)) rnd 6 [5, 3, 8, 1, 9, 2] 0 6 k
      = some ([1, 2, 3, 5, 8, 9], k1) := by
  obtain ⟨out, k1, h1, h2, h3, h4, _⟩ :=
    QuickSort_order (fun x y : Int => decide (x ≤ y)) rnd
      (fun x y => by simp only [decide_eq_true_eq]; omega)
      (fun x y z h1 h2 => by simp only [decide_eq_true_eq] at h1 h2 ⊢; omega)
      [5, 3, 8, 1, 9, 2] 0 6 k 6 (by decide) (by decide) (by decide) (by decide)
  have h5 : out.Pairwise (fun x y : Int => x ≤ y) := by
    have h6 : (6 : Nat) = out.length := by rw [h2]; rfl
    rw [h6] at h4
    have := pairwise_of_PairwiseOrdered _ out h4
    simpa using this
  have hs : ([1, 2, 3, 5, 8, 9] : List Int).Pairwise (fun x y : Int => x ≤ y) := by decide
  have hp : ([5, 3, 8, 1, 9, 2] : List Int).Perm [1, 2, 3, 5, 8, 9] := by decide
  have hout : out = [1, 2, 3, 5, 8, 9] := List.eq_of_perm_of_sorted (h3.trans hp) h5 hs
  exact ⟨k1, by rw [h1, hout]⟩

/-! ## RaddixSort: the bucket vector across passes -/

theorem bucketed_congr (base : Nat) (key key1 : Int → Nat) (l : List Int)
    (h : ∀ x ∈ l, key x = key1 x) : bucketed base key l = bucketed base key1 l := by
  unfold bucketed
  congr 1
  apply List.map_congr_left
  intro d _
  apply List.filter_congr
  intro x hx
  rw [h x hx]

theorem distribute_length (base powerBase : Nat) (a : List Int) :
    ∀ (n it : Nat) (buckets b1 : List (List Int)),
      distribute base powerBase a n it buckets = some b1 → b1.length = buckets.length := by
  intro n
  induction n with
  | zero =>
    intro it buckets b1 h
    rw [distribute] at h
    cases h
    rfl
  | succ n ih =>
    intro it buckets b1 h
    rw [distribute] at h
    rcases hx : a[it]? with _ | x
    · simp [hx] at h
    · rcases hd : bucketIndex base powerBase x with _ | d
      · simp [hx, hd] at h
      · rcases hq : buckets[d]? with _ | q
        · simp [hx, hd, hq] at h
        · simp only [hx, hd, hq] at h
          rw [ih _ _ _ h, List.length_set]

theorem drainBuckets_buckets :
    ∀ (bs : List (List Int)) (a : List Int) (s : Nat) (bs1 : List (List Int)) (a1 : List Int)
      (s1 : Nat), drainBuckets bs a s = some (bs1, a1, s1) → bs1 = List.replicate bs.length []
  | [], a, s, bs1, a1, s1, h => by
    rw [drainBuckets] at h
    cases h
    rfl
  | q :: rest, a, s, bs1, a1, s1, h => by
    rw [drainBuckets] at h
    rcases hq : drainQueue q a s with _ | ⟨a2, s2⟩
    · simp [hq] at h
    · rcases hr : drainBuckets rest a2 s2 with _ | ⟨rest1, a3, s3⟩
      · simp [hq, hr] at h
      · simp only [hq, hr, Option.some.injEq, Prod.mk.injEq] at h
        obtain ⟨h1, _, _⟩ := h
        rw [← h1, drainBuckets_buckets rest a2 s2 rest1 a3 s3 hr]
        rfl

theorem RaddixPass_buckets (base powerBase : Nat) (a : List Int) (b e : Nat)
    (buckets bk1 : List (List Int)) (a1 : List Int) (s : Nat)
    (h : RaddixPass base powerBase a b e buckets = some (bk1, a1, s)) :
    bk1 = List.replicate buckets.length [] := by
  unfold RaddixPass at h
  rcases hd : distribute base powerBase a (e - b) b buckets with _ | b1
  · simp [hd] at h
  · simp only [hd] at h
    rw [drainBuckets_buckets b1 a b bk1 a1 s h, distribute_length _ _ _ _ _ _ _ hd]

theorem RaddixLoop_eq_fresh (base b e : Nat) :
    ∀ (fuel powerBase : Nat) (a : List Int) (passes : Nat),
      RaddixLoop base b e fuel powerBase a (List.replicate base []) passes =
        (RaddixLoopFresh base b e fuel powerBase a passes).map
          (fun r => (r.1, List.replicate base [], r.2)) := by
  intro fuel
  induction fuel with
  | zero =>
    intro powerBase a passes
    rw [RaddixLoop, RaddixLoopFresh]
    by_cases h : powerBase < INT_MAX <;> simp [h]
  | succ fuel ih =>
    intro powerBase a passes
    rw [RaddixLoop, RaddixLoopFresh]
    by_cases h : powerBase < INT_MAX
    · simp only [h, if_true]
      rcases hp : RaddixPass base powerBase a b e (List.replicate base []) with _ | ⟨bk1, a1, s⟩
      · simp
      · have hb := RaddixPass_buckets base powerBase a b e _ bk1 a1 s hp
        rw [List.length_replicate] at hb
        subst hb
        simp only []
        exact ih _ a1 _
    · simp [h]

/-! ## QuickSort: the calls to Partition -/

theorem QuickSortPivots_fst {α : Type} (comp : α → α → Bool) (rnd : Nat → Nat) :
    ∀ (fuel : Nat) (a : List α) (b e k : Nat),
      (QuickSortPivots comp rnd fuel a b e k).map (fun r => (r.1, r.2.1))
        = QuickSort comp rnd fuel a b e k := by
  intro fuel
  induction fuel with
  | zero =>
    intro a b e k
    rw [QuickSortPivots, QuickSort]
    by_cases hd : toInt32 (distance b e) < 2 <;> simp [hd]
  | succ fuel ih =>
    intro a b e k
    rw [QuickSortPivots, QuickSort]
    by_cases hd : toInt32 (distance b e) < 2
    · simp [hd]
    · simp only [hd, if_false]
      rcases Partition comp a b (b + rnd k % (e - b)) e with _ | ⟨a1, p⟩
      · rfl
      · simp only []
        rw [← ih a1 b p (k + 1)]
        rcases QuickSortPivots comp rnd fuel a1 b p (k + 1) with _ | ⟨a2, k2, c1⟩
        · rfl
        · simp only [Option.map_some']
          rw [← ih a2 (p + 1) e k2]
          rcases QuickSortPivots comp rnd fuel a2 (p + 1) e k2 with _ | ⟨a3, k3, c2⟩ <;> rfl

theorem QuickSortPivots_spec {α : Type} (comp : α → α → Bool) (rnd : Nat → Nat) :
    ∀ (fuel : Nat) (a : List α) (b e k : Nat), b ≤ e → e ≤ a.length → e - b ≤ fuel →
      ∃ out k1 calls, QuickSortPivots comp rnd fuel a b e k = some (out, k1, calls) ∧
        out.length = a.length ∧
        ∀ call ∈ calls, b ≤ call.1 ∧ call.1 + 2 ≤ call.2.2 ∧ call.2.2 ≤ e ∧
          call.1 ≤ call.2.1 ∧ call.2.1 < call.2.2 := by
  intro fuel
  induction fuel with
  | zero =>
    intro a b e k hbe hea hf
    refine ⟨a, k, [], ?_, rfl, fun call h => by simp at h⟩
    rw [QuickSortPivots]
    have : toInt32 (distance b e) < 2 := toInt32_lt_two _ (by unfold distance; omega)
      (by unfold distance; omega)
    simp [this]
  | succ fuel ih =>
    intro a b e k hbe hea hf
    by_cases hd : toInt32 (distance b e) < 2
    · refine ⟨a, k, [], ?_, rfl, fun call h => by simp at h⟩
      rw [QuickSortPivots]
      simp [hd]
    · have h2 : 2 ≤ distance b e := two_le_of_not_toInt32_lt _ (by unfold distance; omega) hd
      unfold distance at h2
      have hmod : rnd k % (e - b) < e - b := Nat.mod_lt _ (by omega)
      obtain ⟨a1, p, pv, hP, _, hp1, hp2, hl1, _⟩ :=
        Partition_spec comp a b (b + rnd k % (e - b)) e (by omega) (by omega) (by omega) hea
      obtain ⟨a2, k2, c1, hQ1, hl2, hc1⟩ := ih a1 b p (k + 1) hp1 (by omega) (by omega)
      obtain ⟨a3, k3, c2, hQ2, hl3, hc2⟩ :=
        ih a2 (p + 1) e k2 (by omega) (by omega) (by omega)
      refine ⟨a3, k3, (b, b + rnd k % (e - b), e) :: c1 ++ c2, ?_, by omega, ?_⟩
      · rw [QuickSortPivots]
        simp only [hd, if_false, hP, hQ1, hQ2]
      · intro call hcall
        simp only [List.cons_append, List.mem_cons, List.mem_append] at hcall
        rcases hcall with h | h | h
        · subst h
          simp only
          omega
        · have := hc1 call h
          omega
        · have := hc2 call h
          omega

/-! ## RaddixSort: absence of faults and the place-value multiplier -/

theorem distribute_from_empty (base powerBase : Nat) (a : List Int) (b e : Nat)
    (hp : powerBase ≠ 0) (hb : base ≠ 0) (hbe : b ≤ e) (hea : e ≤ a.length) :
    ∃ b1, distribute base powerBase a (e - b) b (List.replicate base []) = some b1 ∧
      b1.length = base ∧
      b1.flatten = bucketed base (digitOf base powerBase) ((a.drop b).take (e - b)) ∧
      b1.flatten.length = e - b := by
  obtain ⟨b1, he, hl1, hb1⟩ := distribute_spec base powerBase a hp hb (e - b) b
    (List.replicate base []) (by omega) (by simp)
  have hb1eq : b1 = (List.range base).map (fun d => ((a.drop b).take (e - b)).filter
      (fun x => decide (digitOf base powerBase x = d))) := by
    apply List.ext_getElem?
    intro d
    by_cases hd : d < base
    · rw [hb1 d [] (by simp [hd])]
      simp [List.getElem?_range hd]
    · rw [List.getElem?_eq_none (by omega), List.getElem?_eq_none (by simp; omega)]
  have hfl : b1.flatten = bucketed base (digitOf base powerBase) ((a.drop b).take (e - b)) := by
    rw [hb1eq]; rfl
  refine ⟨b1, he, hl1, hfl, ?_⟩
  rw [hfl, (bucketed_perm base _ _ (fun x _ => digitOf_lt base powerBase x hb)).length_eq]
  simp only [List.length_take, List.length_drop]
  omega

theorem powerBaseAt_eq_pow (base : Nat) (hb32 : base < 4294967296) :
    ∀ k, (∀ j, j < k → base ^ j < INT_MAX) →
      powerBaseAt base k = base ^ k ∧ base ^ k < 18446744073709551616
  | 0, _ => by simp [powerBaseAt]
  | k + 1, h => by
    obtain ⟨ih, _⟩ := powerBaseAt_eq_pow base hb32 k (fun j hj => h j (by omega))
    have hk : base ^ k < 2147483647 := h k (by omega)
    have hmul : base ^ k * base < 2147483647 * 4294967296 := Nat.mul_lt_mul'' hk hb32
    rw [powerBaseAt, ih, pow_succ]
    constructor
    · exact Nat.mod_eq_of_lt (by omega)
    · omega

theorem RaddixLoop_step (base b e fuel k : Nat) (a : List Int) (buckets : List (List Int)) :
    RaddixLoop base b e (fuel + 1) (powerBaseAt base k) a buckets k =
      if powerBaseAt base k < INT_MAX then
        match RaddixPass base (powerBaseAt base k) a b e buckets with
        | none => none
        | some (b1, a1, _) => RaddixLoop base b e fuel (powerBaseAt base (k + 1)) a1 b1 (k + 1)
      else some (a, buckets, k) := by
  rw [RaddixLoop]
  rfl

/-! ## QuickSort: a relation between the positions of the sorted range -/

theorem QuickSort_related {α : Type} (comp : α → α → Bool) (rnd : Nat → Nat)
    (R : α → α → Prop)
    (hleftR : ∀ x pv, comp x pv = true → R x pv)
    (hrightR : ∀ y pv, comp y pv = false → R pv y)
    (hcross : ∀ x pv y, comp x pv = true → comp y pv = false → R x y) :
    ∀ (fuel : Nat) (a : List α) (b e k : Nat) (a1 : List α) (k1 : Nat), b ≤ e →
      e ≤ a.length → e - b < 2147483648 → e - b ≤ fuel →
      QuickSort comp rnd fuel a b e k = some (a1, k1) →
      ∀ i j x y, b ≤ i → i < j → j < e → a1[i]? = some x → a1[j]? = some y → R x y := by
  intro fuel
  induction fuel with
  | zero =>
    intro a b e k a1 k1 hbe hea hsz hfu hQ i j x y h1 h2 h3
    omega
  | succ fuel ih =>
    intro a b e k a1 k1 hbe hea hsz hfu hQ
    by_cases hd : toInt32 (distance b e) < 2
    · rw [toInt32_of_small _ (by unfold distance; omega) (by unfold distance; omega)] at hd
      unfold distance at hd
      intro i j x y h1 h2 h3
      omega
    · have h2 : 2 ≤ distance b e := two_le_of_not_toInt32_lt _ (by unfold distance; omega) hd
      unfold distance at h2
      have hmod : rnd k % (e - b) < e - b := Nat.mod_lt _ (by omega)
      obtain ⟨a2, p, pv, hP, _, hp1, hp2, hl2, hperm2, hfr2, hpiv, hL, hR⟩ :=
        Partition_spec comp a b (b + rnd k % (e - b)) e (by omega) (by omega) (by omega) hea
      obtain ⟨a3, k3, hQ1, hl3, hperm3, hfr3⟩ :=
        QuickSort_spec comp rnd fuel a2 b p (k + 1) hp1 (by omega) (by omega)
      obtain ⟨a4, k4, hQ2, hl4, hperm4, hfr4⟩ :=
        QuickSort_spec comp rnd fuel a3 (p + 1) e k3 (by omega) (by omega) (by omega)
      rw [QuickSort] at hQ
      simp only [hd, if_false, hP, hQ1, hQ2, Option.some.injEq, Prod.mk.injEq] at hQ
      obtain ⟨rfl, rfl⟩ := hQ
      have hs1 := ih a2 b p (k + 1) a3 k3 hp1 (by omega) (by omega) (by omega) hQ1
      have hs2 := ih a3 (p + 1) e k3 a4 k4 (by omega) (by omega) (by omega) (by omega) hQ2
      have hleft : ∀ i x, b ≤ i → i < p → a4[i]? = some x → comp x pv = true := by
        intro i x hi1 hi2 hx
        rw [hfr4 i (by omega)] at hx
        obtain ⟨j, hj1, hj2, hj3⟩ := range_mem_of_perm_frame hp1 hperm3 hfr3 i x hi1 hi2 hx
        exact hL j x hj1 hj2 hj3
      have hmid : a4[p]? = some pv := by
        rw [hfr4 p (by omega), hfr3 p (by omega)]; exact hpiv
      have hright : ∀ i x, p < i → i < e → a4[i]? = some x → comp x pv = false := by
        intro i x hi1 hi2 hx
        obtain ⟨j, hj1, hj2, hj3⟩ :=
          range_mem_of_perm_frame (by omega : p + 1 ≤ e) hperm4 hfr4 i x (by omega) hi2 hx
        rw [hfr3 j (by omega)] at hj3
        exact hR j x (by omega) hj2 hj3
      intro i j x y hi1 hij hj2 hx hy
      by_cases hjp : j < p
      · rw [hfr4 i (by omega)] at hx
        rw [hfr4 j (by omega)] at hy
        exact hs1 i j x y hi1 hij hjp hx hy
      · by_cases hjp2 : j = p
        · subst hjp2
          rw [hmid] at hy
          cases hy
          exact hleftR _ _ (hleft i x hi1 hij hx)
        · by_cases hip : i < p
          · exact hcross x pv y (hleft i x hi1 hip hx) (hright j y (by omega) hj2 hy)
          · by_cases hip2 : i = p
            · subst hip2
              rw [hmid] at hx
              cases hx
              exact hrightR _ _ (hright j y (by omega) hj2 hy)
            · exact hs2 i j x y (by omega) hij hj2 hx hy

/-- `QuickSort` with a strict comparator leaves no inversion, where it holds: for every
comparator that is irreflexive and transitive, every stream of `rand()` values and every range
`[b, e)` of fewer than `2 ^ 31` elements. -/
theorem QuickSort_no_inversion {α : Type} (comp : α → α → Bool) (rnd : Nat → Nat)
    (hirr : ∀ x, comp x x = false)
    (htr : ∀ x y z, comp x y = true → comp y z = true → comp x z = true)
    (a : List α) (b e k fuel : Nat) (hbe : b ≤ e) (hea : e ≤ a.length)
    (hsz : e - b < 2147483648) (hf : e - b ≤ fuel) :
    ∃ out k1, QuickSort comp rnd fuel a b e k = some (out, k1) ∧ out.length = a.length ∧
      out.Perm a ∧ NoInversion comp out b e := by
  obtain ⟨out, k1, h1, h2, h3, _⟩ := QuickSort_spec comp rnd fuel a b e k hbe hea hf
  refine ⟨out, k1, h1, h2, h3, ?_⟩
  have hasym : ∀ x y, comp x y = true → comp y x = false := by
    intro x y hxy
    by_contra hyx
    have hyx2 : comp y x = true := by simpa using hyx
    have := htr x y x hxy hyx2
    rw [hirr x] at this
    cases this
  exact QuickSort_related comp rnd (fun x y => comp y x = false) hasym (fun y pv h => h)
    (fun x pv y hx hy => by
      by_contra hyx
      have hyx2 : comp y x = true := by simpa using hyx
      have := htr y x pv hyx2 hx
      rw [hy] at this
      cases this)
    fuel a b e k out k1 hbe hea hsz hf h1

/-- The result of `QuickSort` with `<=` on integers is the sorted list, whatever the stream of
`rand()` values, where it holds: on the whole range of a sequence of fewer than `2 ^ 31`
elements. The reference sort is insertion sort. -/
theorem QuickSort_eq_insertionSort (rnd : Nat → Nat) (a : List Int) (k fuel : Nat)
    (hsz : a.length < 2147483648) (hf : a.length ≤ fuel) :
    ∃ k1, QuickSort (fun x y : Int => decide (x ≤ y)) rnd fuel a 0 a.length k
      = some (a.insertionSort (fun x y => x ≤ y), k1) := by
  obtain ⟨out, k1, h1, h2, h3, h4, _⟩ :=
    QuickSort_order (fun x y : Int => decide (x ≤ y)) rnd
      (fun x y => by simp only [decide_eq_true_eq]; omega)
      (fun x y z h1 h2 => by simp only [decide_eq_true_eq] at h1 h2 ⊢; omega)
      a 0 a.length k fuel (Nat.zero_le _) (le_refl _) (by omega) (by omega)
  have h5 : out.Pairwise (fun x y : Int => x ≤ y) := by
    rw [← h2] at h4
    have := pairwise_of_PairwiseOrdered _ out h4
    simpa using this
  have hout : out = a.insertionSort (fun x y => x ≤ y) :=
    List.eq_of_perm_of_sorted (h3.trans (List.perm_insertionSort _ a).symm) h5
      (List.sorted_insertionSort _ a)
  exact ⟨k1, by rw [h1, hout]⟩

theorem replicate_append_not_sorted (n : Nat) (x y : Int) (h : y < x) :
    ¬ (List.replicate (n + 1) x ++ [y]).Pairwise (fun u v => u ≤ v) := by
  rw [List.pairwise_append]
  rintro ⟨_, _, h3⟩
  have := h3 x (List.mem_replicate.2 ⟨by omega, rfl⟩) y (List.mem_singleton.2 rfl)
  omega

/-! ## Order of a range, by positions and as a list -/

/-- C1 (order invariant of QuickSort), evaluated on a range of `2 ^ 32` elements: the sequence
made of `2 ^ 32 - 1` ones followed by a zero, sorted with `<=` over its whole range. The `int`
variable `distance` receives `2 ^ 32` converted to `int`, which is `0`, so `QuickSort` returns at
once and leaves the sequence as it is, although its last two elements `1, 0` are not in order. -/
theorem QuickSort_long_range_not_ordered (rnd : Nat → Nat) (fuel k : Nat) :
    (List.replicate 4294967295 (1 : Int) ++ [0]).length = 4294967296 ∧
    QuickSort (fun x y : Int => decide (x ≤ y)) rnd fuel
      (List.replicate 4294967295 (1 : Int) ++ [0]) 0 4294967296 k
      = some (List.replicate 4294967295 (1 : Int) ++ [0], k) ∧
    (List.replicate 4294967295 (1 : Int) ++ [0])[4294967294]? = some 1 ∧
    (List.replicate 4294967295 (1 : Int) ++ [0])[4294967295]? = some 0 ∧
    ¬ AdjacentOrdered (fun x y : Int => decide (x ≤ y))
      (List.replicate 4294967295 (1 : Int) ++ [0]) 0 4294967296 := by
  obtain ⟨h1, h2, h3⟩ := replicate_append_singleton_get 4294967294 1 0
  refine ⟨h1, QuickSort_of_int_distance_lt _ _ _ _ _ _ _ (by decide), h2, h3, ?_⟩
  intro h
  have := h 4294967294 1 0 (by omega) (by omega) h2 h3
  simp at this

/-- C3 (permutation invariant of QuickSort): for every sequence, every comparator (no order
assumption), every stream of `rand()` values and every range `[b, e)` of the sequence,
`QuickSort` returns (recursion depth `e - b` is enough) and its output is a permutation of the
input; the contents of the range after the call are a permutation of its contents before. -/
theorem QuickSort_permutation {α : Type} (comp : α → α → Bool) (rnd : Nat → Nat) (a : List α)
    (b e k fuel : Nat) (hbe : b ≤ e) (hea : e ≤ a.length) (hf : e - b ≤ fuel) :
    ∃ out k1, QuickSort comp rnd fuel a b e k = some (out, k1) ∧ out.Perm a ∧
      ((out.drop b).take (e - b)).Perm ((a.drop b).take (e - b)) := by
  obtain ⟨out, k1, h1, _, h3, h4⟩ := QuickSort_spec comp rnd fuel a b e k hbe hea hf
  exact ⟨out, k1, h1, h3, seg_perm_of_frame hbe h3 h4⟩

/-- A concrete instance of the preceding theorem, with its hypotheses discharged. -/
theorem QuickSort_permutation_witness :
    (0 ≤ 6 ∧ 6 ≤ ([5, 3, 8, 1, 9, 2] : List Int).length ∧ 6 - 0 ≤ 6) ∧
    ∃ out k1, QuickSort (fun x y : Int => decide (x < y)) (fun n => 7 * n + 3) 6
        [5, 3, 8, 1, 9, 2] 0 6 0 = some (out, k1) ∧ out.Perm [5, 3, 8, 1, 9, 2] ∧
      ((out.drop 0).take (6 - 0)).Perm ((([5, 3, 8, 1, 9, 2] : List Int).drop 0).take (6 - 0)) :=
  ⟨by decide, QuickSort_permutation _ _ _ 0 6 0 6 (by decide) (by decide) (by decide)⟩

/-- C4 (permutation invariant of RaddixSort): for every sequence of integers (negative values
included), every base `2 <= base` of type `unsigned int` and every range `[b, e)` of the
sequence, `RaddixSort` returns (31 passes are enough) and its output is a permutation of the
input; the contents of the range after the call are a permutation of its contents before. -/
theorem RaddixSort_permutation (a : List Int) (b e base fuel : Nat) (hb2 : 2 ≤ base)
    (hb32 : base < 4294967296) (hbe : b ≤ e) (hea : e ≤ a.length) (hf : 31 ≤ fuel) :
    ∃ out n, RaddixSort fuel a b e base = some (out, n) ∧ out.Perm a ∧
      ((out.drop b).take (e - b)).Perm ((a.drop b).take (e - b)) := by
  by_cases hd : b + 2 ≤ e
  · obtain ⟨out, n, h1, _, h3, h4, h5, _, _⟩ :=
      RaddixSort_spec base b e hb2 hb32 (fun _ l => l.Perm ((a.drop b).take (e - b)))
        (fun pB l _ _ _ hl =>
          (bucketed_perm base _ l (fun x _ => digitOf_lt base pB x (by omega))).trans hl)
        fuel a hd hea hf (List.Perm.refl _)
    refine ⟨out, n, h1, ?_, h5⟩
    rw [eq_take_seg_drop out b e hbe, eq_take_seg_drop a b e hbe, h3, h4]
    exact List.Perm.append_left _ (List.Perm.append_right _ h5)
  · refine ⟨a, 0, ?_, List.Perm.refl _, List.Perm.refl _⟩
    have : distance b e < 2 := by unfold distance; omega
    unfold RaddixSort
    simp [this]

/-- A concrete instance of the preceding theorem, with its hypotheses discharged. -/
theorem RaddixSort_permutation_witness :
    ((2 ≤ 10 ∧ 10 < 4294967296) ∧ 0 ≤ 8 ∧
      8 ≤ ([170, -45, 75, -90, 802, 24, -2, 66] : List Int).length ∧ 31 ≤ 31) ∧
    ∃ out n, RaddixSort 31 [170, -45, 75, -90, 802, 24, -2, 66] 0 8 10 = some (out, n) ∧
      out.Perm [170, -45, 75, -90, 802, 24, -2, 66] ∧
      ((out.drop 0).take (8 - 0)).Perm
        ((([170, -45, 75, -90, 802, 24, -2, 66] : List Int).drop 0).take (8 - 0)) :=
  ⟨by decide, RaddixSort_permutation _ 0 8 10 31 (by decide) (by decide) (by decide)
    (by decide) (by decide)⟩

/-- C5 (Partition correctness): for every range `[begin, end)` of length at least 2, every
pivot position in the range and every comparator, `Partition` returns a pivot position `p` in the
range such that, with `pivotValue` the element at the pivot position before the call,
`comparator(sequence[i], pivotValue)` holds for `begin <= i < p`, `sequence[p] = pivotValue`, and
`comparator(sequence[i], pivotValue)` does not hold for `p < i < end`. -/
theorem Partition_correct {α : Type} (comp : α → α → Bool) (a : List α)
    (begin pivot endp : Nat) (hd : begin + 2 ≤ endp) (hbp : begin ≤ pivot) (hpe : pivot < endp)
    (hea : endp ≤ a.length) :
    ∃ out p pivotValue, Partition comp a begin pivot endp = some (out, p) ∧
      a[pivot]? = some pivotValue ∧ begin ≤ p ∧ p < endp ∧
      (∀ i x, begin ≤ i → i < p → out[i]? = some x → comp x pivotValue = true) ∧
      out[p]? = some pivotValue ∧
      (∀ i x, p < i → i < endp → out[i]? = some x → comp x pivotValue = false) := by
  obtain ⟨out, p, pv, h1, h2, h3, h4, _, _, _, h8, h9, h10⟩ :=
    Partition_spec comp a begin pivot endp hd hbp hpe hea
  exact ⟨out, p, pv, h1, h2, h3, h4, h9, h8, h10⟩

/-- A concrete instance of the preceding theorem, with its hypotheses discharged. -/
theorem Partition_correct_witness :
    (0 + 2 ≤ 6 ∧ 0 ≤ 2 ∧ 2 < 6 ∧ 6 ≤ ([5, 3, 8, 1, 9, 2] : List Int).length) ∧
    ∃ out p pivotValue, Partition (fun x y : Int => decide (x ≤ y)) [5, 3, 8, 1, 9, 2] 0 2 6
        = some (out, p) ∧
      ([5, 3, 8, 1, 9, 2] : List Int)[2]? = some pivotValue ∧ 0 ≤ p ∧ p < 6 ∧
      (∀ i x, 0 ≤ i → i < p → out[i]? = some x → decide (x ≤ pivotValue) = true) ∧
      out[p]? = some pivotValue ∧
      (∀ i x, p < i → i < 6 → out[i]? = some x → decide (x ≤ pivotValue) = false) :=
  ⟨by decide, Partition_correct _ _ 0 2 6 (by decide) (by decide) (by decide) (by decide)⟩

/-- C6 (base-case no-op): on a range of length 0 or 1, `Partition`, `QuickSort` and `RaddixSort`
leave the sequence unchanged (`QuickSort` draws no random value, `RaddixSort` runs no pass), and
`Partition` leaves the pivot position unchanged; `Partition` called with `pivot = end` is a no-op
on a range of any length. -/
theorem base_case_noop {α : Type} (comp : α → α → Bool) (rnd : Nat → Nat) (a : List α)
    (l : List Int) (b e pivot k fuel base : Nat) (h : e = b ∨ e = b + 1) :
    Partition comp a b pivot e = some (a, pivot) ∧
    QuickSort comp rnd fuel a b e k = some (a, k) ∧
    RaddixSort fuel l b e base = some (l, 0) ∧
    (∀ b1 e1, Partition comp a b1 e1 e1 = some (a, e1)) := by
  have hd : distance b e < 2 := by unfold distance; omega
  have hd0 : 0 ≤ distance b e := by unfold distance; omega
  refine ⟨?_, QuickSort_of_int_distance_lt comp rnd fuel a b e k (toInt32_lt_two _ hd hd0),
    ?_, ?_⟩
  · unfold Partition
    simp [hd]
  · unfold RaddixSort
    simp [hd]
  · intro b1 e1
    unfold Partition
    simp

/-- A concrete instance of the preceding theorem, with its hypotheses discharged. -/
theorem base_case_noop_witness :
    ((3 : Nat) = 2 ∨ 3 = 2 + 1) ∧
    Partition (fun x y : Int => decide (x ≤ y)) [5, 3, 8, 1] 2 2 3 = some ([5, 3, 8, 1], 2) ∧
    QuickSort (fun x y : Int => decide (x ≤ y)) (fun _ => 1) 0 [5, 3, 8, 1] 2 3 0
      = some ([5, 3, 8, 1], 0) ∧
    RaddixSort 0 [5, 3, 8, 1] 2 3 10 = some ([5, 3, 8, 1], 0) ∧
    (∀ b1 e1, Partition (fun x y : Int => decide (x ≤ y)) [5, 3, 8, 1] b1 e1 e1
      = some ([5, 3, 8, 1], e1)) :=
  ⟨by decide, base_case_noop _ _ _ _ 2 3 2 0 0 10 (by decide)⟩

/-- C9 (idempotence of QuickSort): for every comparator that is reflexive, antisymmetric and
transitive, every range `[b, e)` on which the comparator holds on every adjacent pair, and every
stream of `rand()` values, `QuickSort` returns exactly the same sequence. -/
theorem QuickSort_idempotent {α : Type} (comp : α → α → Bool) (rnd : Nat → Nat)
    (hrefl : ∀ x, comp x x = true)
    (hanti : ∀ x y, comp x y = true → comp y x = true → x = y)
    (htr : ∀ x y z, comp x y = true → comp y z = true → comp x z = true)
    (a : List α) (b e k fuel : Nat) (hbe : b ≤ e) (hea : e ≤ a.length) (hf : e - b ≤ fuel)
    (hs : AdjacentOrdered comp a b e) :
    ∃ k1, QuickSort comp rnd fuel a b e k = some (a, k1) :=
  QuickSort_ordered comp rnd hrefl hanti fuel a b e k hbe hea hf (hs.pairwise htr hea)

/-- A concrete instance of the preceding theorem, with its hypotheses discharged. -/
theorem QuickSort_idempotent_witness :
    (AdjacentOrdered (fun x y : Int => decide (x ≤ y)) [1, 2, 2, 5, 9] 0 5) ∧
    ∃ k1, QuickSort (fun x y : Int => decide (x ≤ y)) (fun n => n + 2) 5 [1, 2, 2, 5, 9] 0 5 0
      = some ([1, 2, 2, 5, 9], k1) := by
  have hs : AdjacentOrdered (fun x y : Int => decide (x ≤ y)) [1, 2, 2, 5, 9] 0 5 := by
    intro i x y _ hi hx hy
    have hi4 : i < 4 := by omega
    interval_cases i <;> simp at hx hy <;> subst hx <;> subst hy <;> decide
  exact ⟨hs, QuickSort_idempotent _ _ (fun x => by simp)
    (fun x y h1 h2 => by simp at h1 h2; omega)
    (fun x y z h1 h2 => by simp at h1 h2 ⊢; omega)
    [1, 2, 2, 5, 9] 0 5 0 5 (by decide) (by decide) (by decide) hs⟩

/-- C10 (termination of QuickSort): for every range `[b, e)` of a sequence and every stream of
`rand()` values, `QuickSort` returns within recursion depth `e - b`; whenever it gets past its
base case, `Partition` returns a pivot position `p` with `b <= p < e`, so that both recursive
ranges `[b, p)` and `[p + 1, e)` are strictly shorter than `[b, e)`. -/
theorem QuickSort_terminates {α : Type} (comp : α → α → Bool) (rnd : Nat → Nat) (a : List α)
    (b e k fuel : Nat) (hbe : b ≤ e) (hea : e ≤ a.length) (hf : e - b ≤ fuel) :
    (∃ r, QuickSort comp rnd fuel a b e k = some r) ∧
    (¬ toInt32 (distance b e) < 2 →
      ∃ a1 p, Partition comp a b (b + rnd k % (e - b)) e = some (a1, p) ∧ b ≤ p ∧ p < e ∧
        p - b < e - b ∧ e - (p + 1) < e - b) := by
  constructor
  · obtain ⟨out, k1, h1, _⟩ := QuickSort_spec comp rnd fuel a b e k hbe hea hf
    exact ⟨_, h1⟩
  · intro hd
    have h2 : 2 ≤ distance b e := two_le_of_not_toInt32_lt _ (by unfold distance; omega) hd
    unfold distance at h2
    have hmod : rnd k % (e - b) < e - b := Nat.mod_lt _ (by omega)
    obtain ⟨a1, p, pv, hP, _, hp1, hp2, _⟩ :=
      Partition_spec comp a b (b + rnd k % (e - b)) e (by omega) (by omega) (by omega) hea
    exact ⟨a1, p, hP, hp1, hp2, by omega, by omega⟩

/-- A concrete instance of the preceding theorem, with its hypotheses discharged. -/
theorem QuickSort_terminates_witness :
    (0 ≤ 6 ∧ 6 ≤ ([5, 3, 8, 1, 9, 2] : List Int).length ∧ 6 - 0 ≤ 6) ∧
    (∃ r, QuickSort (fun x y : Int => decide (x ≤ y)) (fun _ => 5) 6 [5, 3, 8, 1, 9, 2] 0 6 0
      = some r) ∧
    (¬ toInt32 (distance 0 6) < 2 →
      ∃ a1 p, Partition (fun x y : Int => decide (x ≤ y)) [5, 3, 8, 1, 9, 2] 0
          (0 + (fun _ => 5) 0 % (6 - 0)) 6 = some (a1, p) ∧ 0 ≤ p ∧ p < 6 ∧
        p - 0 < 6 - 0 ∧ 6 - (p + 1) < 6 - 0) :=
  ⟨by decide, QuickSort_terminates _ _ _ 0 6 0 6 (by decide) (by decide) (by decide)⟩

/-- C11 (one pass of RaddixSort is a stable bucketing): for every base `2 <= base`, every
place-value multiplier `m >= 1` and every range `[b, e)` of non-negative `int` values, one pass
started with empty buckets rewrites the range as the concatenation, for `d = 0, 1, ..., base - 1`
in ascending order, of the elements of the range whose digit `(element / m) mod base` is `d`,
each group in its original relative order; the rest of the sequence is untouched and the write
cursor ends at `e`. -/
theorem RaddixPass_stable_bucketing (base m : Nat) (a : List Int) (b e : Nat) (hb : 2 ≤ base)
    (hm : 1 ≤ m) (hbe : b ≤ e) (hea : e ≤ a.length)
    (hrange : ∀ x ∈ (a.drop b).take (e - b), 0 ≤ x ∧ x < 2147483648) :
    ∃ bk out, RaddixPass base m a b e (List.replicate base []) = some (bk, out, e) ∧
      out.take b = a.take b ∧ out.drop e = a.drop e ∧
      (out.drop b).take (e - b) =
        ((List.range base).map (fun d =>
          ((a.drop b).take (e - b)).filter (fun x => decide (x.toNat / m % base = d)))).flatten := by
  have hcongr := bucketed_congr base (digitOf base m) (fun x => x.toNat / m % base)
    ((a.drop b).take (e - b))
    (fun x hx => digitOf_of_nonneg base m x (hrange x hx).1 (hrange x hx).2)
  have hlen : (bucketed base (digitOf base m) ((a.drop b).take (e - b))).length = e - b := by
    rw [(bucketed_perm base _ _ (fun x _ => digitOf_lt base m x (by omega))).length_eq]
    simp only [List.length_take, List.length_drop]
    omega
  obtain ⟨_, f2, f3, f4⟩ := pass_result_frame a _ b e hbe hea hlen
  refine ⟨_, _, RaddixPass_spec base m a b e (by omega) (by omega) hbe hea, f2, f3, ?_⟩
  rw [f4, hcongr]
  rfl

/-- A concrete instance of the preceding theorem, with its hypotheses discharged. -/
theorem RaddixPass_stable_bucketing_witness :
    ((2 ≤ 10 ∧ 1 ≤ 10) ∧ 1 ≤ 5 ∧ 5 ≤ ([7, 170, 45, 75, 802, 3] : List Int).length) ∧
    ∃ bk out, RaddixPass 10 10 [7, 170, 45, 75, 802, 3] 1 5 (List.replicate 10 [])
        = some (bk, out, 5) ∧
      out.take 1 = ([7, 170, 45, 75, 802, 3] : List Int).take 1 ∧
      out.drop 5 = ([7, 170, 45, 75, 802, 3] : List Int).drop 5 ∧
      (out.drop 1).take (5 - 1) =
        ((List.range 10).map (fun d =>
          ((([7, 170, 45, 75, 802, 3] : List Int).drop 1).take (5 - 1)).filter
            (fun x => decide (x.toNat / 10 % 10 = d)))).flatten :=
  ⟨by decide, RaddixPass_stable_bucketing 10 10 _ 1 5 (by decide) (by decide) (by decide)
    (by decide) (by decide)⟩

/-- C12 (bucket invariant of RaddixSort): the bucket vector is allocated once before the loop;
a pass that starts with `base` empty buckets ends with `base` empty buckets, so the loop run with
the shared bucket vector gives the same result as the loop that rebuilds a fresh bucket vector
for every pass, and so does `RaddixSort`. -/
theorem RaddixSort_buckets_invariant (base b e : Nat) :
    (∀ powerBase a bk1 a1 s,
      RaddixPass base powerBase a b e (List.replicate base []) = some (bk1, a1, s) →
        bk1 = List.replicate base []) ∧
    (∀ fuel powerBase a passes,
      RaddixLoop base b e fuel powerBase a (List.replicate base []) passes =
        (RaddixLoopFresh base b e fuel powerBase a passes).map
          (fun r => (r.1, List.replicate base [], r.2))) ∧
    (∀ fuel a, RaddixSort fuel a b e base = RaddixSortFresh fuel a b e base) := by
  refine ⟨?_, RaddixLoop_eq_fresh base b e, ?_⟩
  · intro powerBase a bk1 a1 s h
    have := RaddixPass_buckets base powerBase a b e _ bk1 a1 s h
    rwa [List.length_replicate] at this
  · intro fuel a
    unfold RaddixSort RaddixSortFresh
    by_cases hd : distance b e < 2
    · simp [hd]
    · simp only [hd, if_false, RaddixLoop_eq_fresh base b e fuel 1 a 0]
      rcases RaddixLoopFresh base b e fuel 1 a 0 with _ | ⟨a1, n⟩ <;> rfl

/-- A concrete instance of the preceding theorem: the bucket vector after the first pass of the
specification's base-10 example, and the agreement of the two ways of running the sort on it. -/
theorem RaddixSort_buckets_invariant_witness :
    (RaddixPass 10 1 [170, 45, 75, 90, 802, 24, 2, 66] 0 8 (List.replicate 10 [])
        = some (List.replicate 10 [], [170, 90, 802, 2, 24, 45, 75, 66], 8) ∧
      List.replicate 10 ([] : List Int) = List.replicate 10 []) ∧
    RaddixSort 31 [170, 45, 75, 90, 802, 24, 2, 66] 0 8 10
      = RaddixSortFresh 31 [170, 45, 75, 90, 802, 24, 2, 66] 0 8 10 :=
  ⟨⟨by decide, (RaddixSort_buckets_invariant 10 0 8).1 1 [170, 45, 75, 90, 802, 24, 2, 66]
      (List.replicate 10 []) [170, 90, 802, 2, 24, 45, 75, 66] 8 (by decide)⟩,
    (RaddixSort_buckets_invariant 10 0 8).2.2 31 _⟩

/-- C13 (pivot selection of QuickSort stays inside the active range): for every range
`[b, e)` of length `n >= 2` and every non-negative value `r` of `rand()`, the pivot
`b + (r mod n)` satisfies `b <= pivot <= e - 1` and is not `e`; every position `i` of the range
is the pivot chosen for `r = i - b`; and in a run of `QuickSort` on a range of a sequence every
call to `Partition` gets a range of length at least 2 inside `[b, e)` and a pivot inside that
range, so that the no-op branch of `Partition` is not taken. -/
theorem QuickSort_pivot_in_range {α : Type} (comp : α → α → Bool) (rnd : Nat → Nat)
    (a : List α) (b e k fuel : Nat) (hbe : b ≤ e) (hea : e ≤ a.length) (hf : e - b ≤ fuel) :
    (∀ r, b + 2 ≤ e →
      b ≤ b + r % (e - b) ∧ b + r % (e - b) ≤ e - 1 ∧ b + r % (e - b) ≠ e) ∧
    (∀ i, b + 2 ≤ e → b ≤ i → i ≤ e - 1 → b + (i - b) % (e - b) = i) ∧
    ∃ out k1 calls, QuickSortPivots comp rnd fuel a b e k = some (out, k1, calls) ∧
      QuickSort comp rnd fuel a b e k = some (out, k1) ∧
      ∀ call ∈ calls, b ≤ call.1 ∧ call.1 + 2 ≤ call.2.2 ∧ call.2.2 ≤ e ∧
        call.1 ≤ call.2.1 ∧ call.2.1 ≤ call.2.2 - 1 ∧
        ¬ (distance call.1 call.2.2 < 2 ∨ call.2.1 = call.2.2) := by
  refine ⟨?_, ?_, ?_⟩
  · intro r h
    have hmod : r % (e - b) < e - b := Nat.mod_lt _ (by omega)
    omega
  · intro i h hi1 hi2
    rw [Nat.mod_eq_of_lt (by omega)]
    omega
  · obtain ⟨out, k1, calls, h1, _, h3⟩ := QuickSortPivots_spec comp rnd fuel a b e k hbe hea hf
    refine ⟨out, k1, calls, h1, ?_, ?_⟩
    · rw [← QuickSortPivots_fst, h1]
      rfl
    · intro call hcall
      have := h3 call hcall
      unfold distance
      omega

/-- A concrete instance of the preceding theorem, with its hypotheses discharged. -/
theorem QuickSort_pivot_in_range_witness :
    (0 ≤ 6 ∧ 6 ≤ ([5, 3, 8, 1, 9, 2] : List Int).length ∧ 6 - 0 ≤ 6) ∧
    (∀ r, 0 + 2 ≤ 6 →
      0 ≤ 0 + r % (6 - 0) ∧ 0 + r % (6 - 0) ≤ 6 - 1 ∧ 0 + r % (6 - 0) ≠ 6) ∧
    (∀ i, 0 + 2 ≤ 6 → 0 ≤ i → i ≤ 6 - 1 → 0 + (i - 0) % (6 - 0) = i) ∧
    ∃ out k1 calls, QuickSortPivots (fun x y : Int => decide (x ≤ y)) (fun n => 5 * n + 11) 6
        [5, 3, 8, 1, 9, 2] 0 6 0 = some (out, k1, calls) ∧
      QuickSort (fun x y : Int => decide (x ≤ y)) (fun n => 5 * n + 11) 6
        [5, 3, 8, 1, 9, 2] 0 6 0 = some (out, k1) ∧
      ∀ call ∈ calls, 0 ≤ call.1 ∧ call.1 + 2 ≤ call.2.2 ∧ call.2.2 ≤ 6 ∧
        call.1 ≤ call.2.1 ∧ call.2.1 ≤ call.2.2 - 1 ∧
        ¬ (distance call.1 call.2.2 < 2 ∨ call.2.1 = call.2.2) :=
  ⟨by decide, QuickSort_pivot_in_range _ _ _ 0 6 0 6 (by decide) (by decide) (by decide)⟩

/-- C14 (RaddixSort does not fault on any integer input): for every base `2 <= base` of type
`unsigned int`, every sequence of integers (negative values included) and every range `[b, e)` of
it, every bucket index is below `base` whatever the element and the non-zero place value; in a
pass the buckets receive exactly `e - b` elements and the drain writes them back with the write
cursor ending exactly at `e`; and `RaddixSort` returns without a fault. -/
theorem RaddixSort_no_fault (a : List Int) (b e base fuel : Nat) (hb2 : 2 ≤ base)
    (hb32 : base < 4294967296) (hbe : b ≤ e) (hea : e ≤ a.length) (hf : 31 ≤ fuel) :
    (∀ powerBase x, powerBase ≠ 0 → ∃ d, bucketIndex base powerBase x = some d ∧ d < base) ∧
    (∀ powerBase, powerBase ≠ 0 →
      ∃ b1 bk out, distribute base powerBase a (e - b) b (List.replicate base []) = some b1 ∧
        b1.length = base ∧ b1.flatten.length = e - b ∧
        drainBuckets b1 a b = some (bk, out, e) ∧ out.length = a.length ∧
        RaddixPass base powerBase a b e (List.replicate base []) = some (bk, out, e)) ∧
    ∃ out n, RaddixSort fuel a b e base = some (out, n) ∧ out.length = a.length := by
  refine ⟨?_, ?_, ?_⟩
  · intro powerBase x hp
    exact ⟨_, bucketIndex_eq base powerBase x hp (by omega),
      digitOf_lt base powerBase x (by omega)⟩
  · intro powerBase hp
    obtain ⟨b1, h1, h2, _, h4⟩ := distribute_from_empty base powerBase a b e hp (by omega) hbe hea
    have hdr := drainBuckets_spec b1 a b (by omega)
    have hbe2 : b + b1.flatten.length = e := by omega
    rw [hbe2] at hdr
    refine ⟨b1, _, _, h1, h2, h4, hdr, ?_, ?_⟩
    · simp only [List.length_append, List.length_take, List.length_drop]
      omega
    · unfold RaddixPass
      rw [h1]
      exact hdr
  · by_cases hd : b + 2 ≤ e
    · obtain ⟨out, n, h1, h2, _⟩ :=
        RaddixSort_spec base b e hb2 hb32 (fun _ _ => True) (fun _ _ _ _ _ _ => trivial)
          fuel a hd hea hf trivial
      exact ⟨out, n, h1, h2⟩
    · refine ⟨a, 0, ?_, rfl⟩
      have : distance b e < 2 := by unfold distance; omega
      unfold RaddixSort
      simp [this]

/-- A concrete instance of the preceding theorem, with its hypotheses discharged. -/
theorem RaddixSort_no_fault_witness :
    ((2 ≤ 10 ∧ 10 < 4294967296) ∧ 0 ≤ 5 ∧ 5 ≤ ([-7, 170, -45, 75, -802] : List Int).length ∧
      31 ≤ 31) ∧
    (∀ powerBase x, powerBase ≠ 0 → ∃ d, bucketIndex 10 powerBase x = some d ∧ d < 10) ∧
    (∀ powerBase, powerBase ≠ 0 →
      ∃ b1 bk out, distribute 10 powerBase [-7, 170, -45, 75, -802] (5 - 0) 0
          (List.replicate 10 []) = some b1 ∧
        b1.length = 10 ∧ b1.flatten.length = 5 - 0 ∧
        drainBuckets b1 [-7, 170, -45, 75, -802] 0 = some (bk, out, 5) ∧
        out.length = ([-7, 170, -45, 75, -802] : List Int).length ∧
        RaddixPass 10 powerBase [-7, 170, -45, 75, -802] 0 5 (List.replicate 10 [])
          = some (bk, out, 5)) ∧
    ∃ out n, RaddixSort 31 [-7, 170, -45, 75, -802] 0 5 10 = some (out, n) ∧
      out.length = ([-7, 170, -45, 75, -802] : List Int).length :=
  ⟨by decide, RaddixSort_no_fault _ 0 5 10 31 (by decide) (by decide) (by decide) (by decide)
    (by decide)⟩

/-- C15 (Partition on all-equal input puts the pivot at an extreme): for every range `[b, e)`
of length at least 2 whose elements are all equal to `v` and every pivot position in the range,
`Partition` returns the pivot position `b` when the comparator does not hold between `v` and
itself (strict comparator), and `e - 1` when it does (reflexive comparator); the range still
holds `v` everywhere. -/
theorem Partition_all_equal {α : Type} (comp : α → α → Bool) (a : List α)
    (b pivot e : Nat) (v : α) (hd : b + 2 ≤ e) (hbp : b ≤ pivot) (hpe : pivot < e)
    (hea : e ≤ a.length) (hall : ∀ i, b ≤ i → i < e → a[i]? = some v) :
    ∃ out p, Partition comp a b pivot e = some (out, p) ∧
      (comp v v = false → p = b) ∧ (comp v v = true → p = e - 1) ∧
      (∀ i, b ≤ i → i < e → out[i]? = some v) := by
  obtain ⟨out, p, pv, h1, h2, h3, h4, h5, h6, h7, h8, h9, h10⟩ :=
    Partition_spec comp a b pivot e hd hbp hpe hea
  have hpv : pv = v := by
    rw [hall pivot hbp hpe] at h2
    exact (Option.some.inj h2).symm
  subst hpv
  have hout : ∀ i, b ≤ i → i < e → out[i]? = some pv := by
    intro i hi1 hi2
    have hlt : i < out.length := by omega
    obtain ⟨j, hj1, hj2, hj3⟩ := range_mem_of_perm_frame (by omega : b ≤ e) h6 h7 i _ hi1 hi2
      (List.getElem?_eq_getElem hlt)
    rw [hall j hj1 hj2] at hj3
    rw [List.getElem?_eq_getElem hlt, ← Option.some.inj hj3]
  refine ⟨out, p, h1, ?_, ?_, hout⟩
  · intro hc
    by_contra hne
    have := h9 b pv (le_refl _) (by omega) (hout b (le_refl _) (by omega))
    rw [hc] at this
    cases this
  · intro hc
    by_contra hne
    have := h10 (p + 1) pv (by omega) (by omega) (hout (p + 1) (by omega) (by omega))
    rw [hc] at this
    cases this

/-- A concrete instance of the preceding theorem, with its hypotheses discharged. -/
theorem Partition_all_equal_witness :
    ((1 + 2 ≤ 5 ∧ 1 ≤ 3 ∧ 3 < 5 ∧ 5 ≤ ([9, 4, 4, 4, 4, 0] : List Int).length) ∧
      ∀ i, 1 ≤ i → i < 5 → ([9, 4, 4, 4, 4, 0] : List Int)[i]? = some 4) ∧
    ∃ out p, Partition (fun x y : Int => decide (x < y)) [9, 4, 4, 4, 4, 0] 1 3 5
        = some (out, p) ∧
      (decide ((4 : Int) < 4) = false → p = 1) ∧ (decide ((4 : Int) < 4) = true → p = 5 - 1) ∧
      (∀ i, 1 ≤ i → i < 5 → out[i]? = some 4) := by
  have hall : ∀ i, 1 ≤ i → i < 5 → ([9, 4, 4, 4, 4, 0] : List Int)[i]? = some 4 := by
    intro i h1 h2
    interval_cases i <;> rfl
  exact ⟨⟨by decide, hall⟩, Partition_all_equal _ _ 1 3 5 4 (by decide) (by decide) (by decide)
    (by decide) hall⟩

/-- C16 (Partition preserves the multiset): for every range `[b, e)` of a sequence, every pivot
position in the range (or equal to `e`) and every comparator, `Partition` returns, the contents
of the range after the call are a permutation of its contents before, and so is the whole
sequence. -/
theorem Partition_permutation {α : Type} (comp : α → α → Bool) (a : List α)
    (b pivot e : Nat) (hbe : b ≤ e) (hea : e ≤ a.length) (hbp : b ≤ pivot) (hpe : pivot ≤ e) :
    ∃ out p, Partition comp a b pivot e = some (out, p) ∧
      ((out.drop b).take (e - b)).Perm ((a.drop b).take (e - b)) ∧ out.Perm a := by
  by_cases hd : distance b e < 2 ∨ pivot = e
  · refine ⟨a, pivot, ?_, List.Perm.refl _, List.Perm.refl _⟩
    unfold Partition
    simp [hd]
  · have hd2 : b + 2 ≤ e := by
      unfold distance at hd
      omega
    have hpe2 : pivot < e := by omega
    obtain ⟨out, p, pv, h1, _, _, _, _, h6, h7, _⟩ :=
      Partition_spec comp a b pivot e hd2 hbp hpe2 hea
    exact ⟨out, p, h1, seg_perm_of_frame hbe h6 h7, h6⟩

/-- A concrete instance of the preceding theorem, with its hypotheses discharged. -/
theorem Partition_permutation_witness :
    (1 ≤ 5 ∧ 5 ≤ ([9, 4, 7, 1, 4, 0] : List Int).length ∧ 1 ≤ 2 ∧ 2 ≤ 5) ∧
    ∃ out p, Partition (fun x y : Int => decide (x ≤ y)) [9, 4, 7, 1, 4, 0] 1 2 5
        = some (out, p) ∧
      ((out.drop 1).take (5 - 1)).Perm ((([9, 4, 7, 1, 4, 0] : List Int).drop 1).take (5 - 1)) ∧
      out.Perm [9, 4, 7, 1, 4, 0] :=
  ⟨by decide, Partition_permutation _ _ 1 2 5 (by decide) (by decide) (by decide) (by decide)⟩

/-- C17 (QuickSort with a strict comparator leaves no inversion), evaluated on a range of
`2 ^ 32` elements: the sequence made of `2 ^ 32 - 1` sevens followed by a three, sorted with `<`
over its whole range. The `int` variable `distance` receives `2 ^ 32` converted to `int`, which
is `0`, so `QuickSort` returns at once and leaves the sequence as it is, with the inversion
`3 < 7` between its last two positions. -/
theorem QuickSort_long_range_inversion (rnd : Nat → Nat) (fuel k : Nat) :
    (List.replicate 4294967295 (7 : Int) ++ [3]).length = 4294967296 ∧
    QuickSort (fun x y : Int => decide (x < y)) rnd fuel
      (List.replicate 4294967295 (7 : Int) ++ [3]) 0 4294967296 k
      = some (List.replicate 4294967295 (7 : Int) ++ [3], k) ∧
    (List.replicate 4294967295 (7 : Int) ++ [3])[4294967294]? = some 7 ∧
    (List.replicate 4294967295 (7 : Int) ++ [3])[4294967295]? = some 3 ∧
    ¬ NoInversion (fun x y : Int => decide (x < y))
      (List.replicate 4294967295 (7 : Int) ++ [3]) 0 4294967296 := by
  obtain ⟨h1, h2, h3⟩ := replicate_append_singleton_get 4294967294 7 3
  refine ⟨h1, QuickSort_of_int_distance_lt _ _ _ _ _ _ _ (by decide), h2, h3, ?_⟩
  intro h
  have := h 4294967294 4294967295 7 3 (by omega) (by omega) (by omega) h2 h3
  simp at this

/-- C18 (the result of QuickSort does not depend on the random pivots and is the sorted list),
evaluated on a range of `2 ^ 32` elements: the sequence made of `2 ^ 32 - 1` fives followed by a
two, sorted with `<=` over its whole range. For every stream of `rand()` values `QuickSort`
returns the sequence as it is (the `int` variable `distance` is `0`), and that is not ascending,
hence not the result of the reference sort. -/
theorem QuickSort_long_range_not_reference_sort (rnd : Nat → Nat) (fuel k : Nat) :
    QuickSort (fun x y : Int => decide (x ≤ y)) rnd fuel
      (List.replicate 4294967295 (5 : Int) ++ [2]) 0 4294967296 k
      = some (List.replicate 4294967295 (5 : Int) ++ [2], k) ∧
    ¬ (List.replicate 4294967295 (5 : Int) ++ [2]).Pairwise (fun u v => u ≤ v) ∧
    List.replicate 4294967295 (5 : Int) ++ [2]
      ≠ (List.replicate 4294967295 (5 : Int) ++ [2]).insertionSort (fun u v => u ≤ v) := by
  have hns := replicate_append_not_sorted 4294967294 5 2 (by decide)
  refine ⟨QuickSort_of_int_distance_lt _ _ _ _ _ _ _ (by decide), hns, ?_⟩
  intro heq
  apply hns
  have hs := List.sorted_insertionSort (fun u v : Int => u ≤ v)
    (List.replicate (4294967294 + 1) (5 : Int) ++ [2])
  rw [← heq] at hs
  exact hs

/-- C19 (Partition and QuickSort touch only their range): on a range `[b, e)` of a longer
sequence, with the pivot inside the range (or equal to `e`), every position outside `[b, e)`
holds the same element after `Partition`, and after `QuickSort` for every stream of `rand()`
values; in particular the second recursive call of `QuickSort`, on `[p + 1, e)`, leaves every
position up to `p` as it was. -/
theorem frame_outside_range {α : Type} (comp : α → α → Bool) (rnd : Nat → Nat) (a : List α)
    (b pivot e k fuel : Nat) (hbe : b ≤ e) (hea : e ≤ a.length) (hbp : b ≤ pivot)
    (hpe : pivot ≤ e) (hf : e - b ≤ fuel) :
    (∃ out p, Partition comp a b pivot e = some (out, p) ∧ out.length = a.length ∧
      ∀ i, i < b ∨ e ≤ i → out[i]? = a[i]?) ∧
    (∃ out k1, QuickSort comp rnd fuel a b e k = some (out, k1) ∧ out.length = a.length ∧
      ∀ i, i < b ∨ e ≤ i → out[i]? = a[i]?) ∧
    (∀ p, b ≤ p → p < e →
      ∃ out k1, QuickSort comp rnd fuel a (p + 1) e k = some (out, k1) ∧
        ∀ i, i ≤ p → out[i]? = a[i]?) := by
  refine ⟨?_, ?_, ?_⟩
  · by_cases hd : distance b e < 2 ∨ pivot = e
    · refine ⟨a, pivot, ?_, rfl, fun _ _ => rfl⟩
      unfold Partition
      simp [hd]
    · have hd2 : b + 2 ≤ e := by
        unfold distance at hd
        omega
      obtain ⟨out, p, pv, h1, _, _, _, h5, _, h7, _⟩ :=
        Partition_spec comp a b pivot e hd2 hbp (by omega) hea
      exact ⟨out, p, h1, h5, h7⟩
  · obtain ⟨out, k1, h1, h2, _, h4⟩ := QuickSort_spec comp rnd fuel a b e k hbe hea hf
    exact ⟨out, k1, h1, h2, h4⟩
  · intro p hp1 hp2
    obtain ⟨out, k1, h1, _, _, h4⟩ :=
      QuickSort_spec comp rnd fuel a (p + 1) e k (by omega) hea (by omega)
    exact ⟨out, k1, h1, fun i hi => h4 i (Or.inl (by omega))⟩

/-- A concrete instance of the preceding theorem, with its hypotheses discharged. -/
theorem frame_outside_range_witness :
    (1 ≤ 5 ∧ 5 ≤ ([9, 4, 7, 1, 4, 0] : List Int).length ∧ 1 ≤ 3 ∧ 3 ≤ 5 ∧ 5 - 1 ≤ 4) ∧
    (∃ out p, Partition (fun x y : Int => decide (x ≤ y)) [9, 4, 7, 1, 4, 0] 1 3 5
        = some (out, p) ∧ out.length = ([9, 4, 7, 1, 4, 0] : List Int).length ∧
      ∀ i, i < 1 ∨ 5 ≤ i → out[i]? = ([9, 4, 7, 1, 4, 0] : List Int)[i]?) ∧
    (∃ out k1, QuickSort (fun x y : Int => decide (x ≤ y)) (fun n => n + 1) 4
        [9, 4, 7, 1, 4, 0] 1 5 0 = some (out, k1) ∧
      out.length = ([9, 4, 7, 1, 4, 0] : List Int).length ∧
      ∀ i, i < 1 ∨ 5 ≤ i → out[i]? = ([9, 4, 7, 1, 4, 0] : List Int)[i]?) ∧
    (∀ p, 1 ≤ p → p < 5 →
      ∃ out k1, QuickSort (fun x y : Int => decide (x ≤ y)) (fun n => n + 1) 4
          [9, 4, 7, 1, 4, 0] (p + 1) 5 0 = some (out, k1) ∧
        ∀ i, i ≤ p → out[i]? = ([9, 4, 7, 1, 4, 0] : List Int)[i]?) :=
  ⟨by decide, frame_outside_range _ _ _ 1 3 5 0 4 (by decide) (by decide) (by decide)
    (by decide) (by decide)⟩

/-- C20 (the place-value multiplier of RaddixSort never wraps): for `int` elements, a 64-bit
`size_t` and every base `2 <= base < 2 ^ 32`, on a range of length at least 2 `RaddixSort`
returns after `n <= 31` passes; the loop started at `powerBase = 1` runs pass number `k` with the
machine value `powerBaseAt base k`; for every `k <= n` that value equals the power `base ^ k`,
is below `2 ^ 64` and is not zero; it is below `INT_MAX` for `k < n` and at least `INT_MAX` for
`k = n`, where the loop exits. -/
theorem RaddixSort_multiplier_no_wrap (a : List Int) (b e base fuel : Nat) (hb2 : 2 ≤ base)
    (hb32 : base < 4294967296) (hbe : b + 2 ≤ e) (hea : e ≤ a.length) (hf : 31 ≤ fuel) :
    (∀ fuel1 k a1 buckets,
      RaddixLoop base b e (fuel1 + 1) (powerBaseAt base k) a1 buckets k =
        if powerBaseAt base k < INT_MAX then
          match RaddixPass base (powerBaseAt base k) a1 b e buckets with
          | none => none
          | some (b1, a2, _) =>
            RaddixLoop base b e fuel1 (powerBaseAt base (k + 1)) a2 b1 (k + 1)
        else some (a1, buckets, k)) ∧
    ∃ out n, RaddixSort fuel a b e base = some (out, n) ∧ n ≤ 31 ∧
      (∀ k, k ≤ n → powerBaseAt base k = base ^ k ∧ base ^ k < 18446744073709551616 ∧
        powerBaseAt base k ≠ 0) ∧
      (∀ k, k < n → powerBaseAt base k < INT_MAX) ∧ INT_MAX ≤ powerBaseAt base n := by
  refine ⟨fun fuel1 k a1 buckets => RaddixLoop_step base b e fuel1 k a1 buckets, ?_⟩
  obtain ⟨out, n, h1, _, _, _, _, h7, h8⟩ :=
    RaddixSort_spec base b e hb2 hb32 (fun _ _ => True) (fun _ _ _ _ _ _ => trivial)
      fuel a hbe hea hf trivial
  have hpow : ∀ k, k ≤ n → powerBaseAt base k = base ^ k ∧ base ^ k < 18446744073709551616 :=
    fun k hk => powerBaseAt_eq_pow base hb32 k (fun j hj => h8 j (by omega))
  refine ⟨out, n, h1, ?_, ?_, ?_, ?_⟩
  · by_contra hn
    have h31 := h8 31 (by omega)
    have h2 : 2 ^ 31 ≤ base ^ 31 := Nat.pow_le_pow_left hb2 31
    unfold INT_MAX at h31
    omega
  · intro k hk
    obtain ⟨e1, e2⟩ := hpow k hk
    refine ⟨e1, e2, ?_⟩
    rw [e1]
    exact pow_ne_zero k (by omega)
  · intro k hk
    rw [(hpow k (by omega)).1]
    exact h8 k hk
  · rw [(hpow n (le_refl _)).1]
    exact h7

/-- A concrete instance of the preceding theorem, with its hypotheses discharged. -/
theorem RaddixSort_multiplier_no_wrap_witness :
    ((2 ≤ 4294967295 ∧ 4294967295 < 4294967296) ∧ 0 + 2 ≤ 3 ∧
      3 ≤ ([3, 1, 2] : List Int).length ∧ 31 ≤ 31) ∧
    (∀ fuel1 k a1 buckets,
      RaddixLoop 4294967295 0 3 (fuel1 + 1) (powerBaseAt 4294967295 k) a1 buckets k =
        if powerBaseAt 4294967295 k < INT_MAX then
          match RaddixPass 4294967295 (powerBaseAt 4294967295 k) a1 0 3 buckets with
          | none => none
          | some (b1, a2, _) =>
            RaddixLoop 4294967295 0 3 fuel1 (powerBaseAt 4294967295 (k + 1)) a2 b1 (k + 1)
        else some (a1, buckets, k)) ∧
    ∃ out n, RaddixSort 31 [3, 1, 2] 0 3 4294967295 = some (out, n) ∧ n ≤ 31 ∧
      (∀ k, k ≤ n → powerBaseAt 4294967295 k = 4294967295 ^ k ∧
        4294967295 ^ k < 18446744073709551616 ∧ powerBaseAt 4294967295 k ≠ 0) ∧
      (∀ k, k < n → powerBaseAt 4294967295 k < INT_MAX) ∧
      INT_MAX ≤ powerBaseAt 4294967295 n :=
  ⟨by decide, RaddixSort_multiplier_no_wrap _ 0 3 4294967295 31 (by decide) (by decide)
    (by decide) (by decide) (by decide)⟩

end ArrayAlgorithms
